import Mathlib

/-!
Shallow embedding of the reach-code-visualizer graph engine
(`src/graph/graph_queries.py`, `src/analyzers/dependency_analyzer.py`,
`src/analyzers/flow_tracer.py`, `src/graph/graph_builder.py`).

The `networkx.DiGraph` used by the Python code is modelled as a list of
`(id, optional attribute record)` nodes plus a list of
`(source, target, attribute record)` edges; a node whose attribute value is
`none` models a node that was auto-created by `add_edge` and therefore has an
empty attribute dictionary.  Python `dict.get(key, default)` accesses are
modelled by total accessor functions applying the same defaults.  String
manipulation is performed over the character list of a `String` so that all
definitions reduce inside the kernel.
-/

namespace Reach

/-- ASCII lower-casing, the effect of Python's `str.lower()` on the
identifier/path strings the engine manipulates. -/
def lowerStr (s : String) : String := ⟨s.data.map Char.toLower⟩

/-- `containsSub needle hay` decides whether `needle` occurs as a contiguous
sublist of `hay`; Python's `needle in hay` on strings. -/
def containsSub (needle : List Char) : List Char → Bool
  | [] => needle.isEmpty
  | c :: cs => needle.isPrefixOf (c :: cs) || containsSub needle cs

/-- Python's substring test `needle in hay`. -/
def strContains (hay needle : String) : Bool := containsSub needle.data hay.data

/-- Python's `s.startswith(p)`. -/
def startsWithStr (s p : String) : Bool := p.data.isPrefixOf s.data

/-- Drop a literal leading string, `s[len(p):]`, when `p` is a prefix. -/
def dropPre (p s : String) : Option String :=
  if p.data.isPrefixOf s.data then some ⟨s.data.drop p.data.length⟩ else none

/-- Python's `s.replace(a, b)` for single characters. -/
def replaceChar (a b : Char) (s : String) : String :=
  ⟨s.data.map (fun c => if c == a then b else c)⟩

/-- Strip the first matching prefix of the list (the `break` in `_short_path`). -/
def stripFirst : List String → String → String
  | [], s => s
  | p :: ps, s =>
    match dropPre p s with
    | some r => r
    | none => stripFirst ps s

/-- `_short_path` (identical in `GraphQueries`, `DependencyAnalyzer` and
`FlowTracer`): strip one of the known path prefixes, then normalise
backslashes to slashes. -/
def shortPath (file_path : String) : String :=
  if file_path == "" then ""
  else replaceChar '\\' '/' (stripFirst ["F:/Reach/", "F:\\Reach\\", "/", "\\"] file_path)

/-- The metadata keys the graph engine reads (`base_parser` parsers are the
writers: `defined_in_scene` is the Python bool `True` when present, `signal`
and `handler` are strings).  All other metadata keys are opaque to the engine
and are not modelled. -/
structure Metadata where
  defined_in_scene : Option Bool
  signal : Option String
  handler : Option String
deriving Repr, DecidableEq

/-- The empty metadata dictionary. -/
def emptyMetadata : Metadata := { defined_in_scene := none, signal := none, handler := none }

/-- Node attributes as written by `GraphBuilder._add_parse_result_to_graph`. -/
structure NodeData where
  type : String
  name : String
  file_path : String
  line_number : Nat
  language : String
  code_snippet : String
  metadata : Metadata
  confidence : String
deriving Repr, DecidableEq

/-- Edge attributes as written by `GraphBuilder._add_parse_result_to_graph`. -/
structure EdgeData where
  relationship : String
  context : String
  metadata : Metadata
  confidence : String
deriving Repr, DecidableEq

/-- The `networkx.DiGraph`: nodes keyed by id (`none` data models a node whose
attribute dictionary is empty, i.e. one auto-created by `add_edge`), and at
most one edge record per ordered `(source, target)` pair. -/
structure Graph where
  nodes : List (String × Option NodeData)
  edges : List (String × String × EdgeData)
deriving Repr, DecidableEq

/-- `id in graph`. -/
def Graph.hasNode (g : Graph) (id : String) : Bool := g.nodes.any (fun p => p.1 == id)

/-- Attribute record of a node; `none` both for an absent node and for a node
with an empty attribute dictionary, matching `graph.nodes.get(id, {})`. -/
def Graph.nodeData (g : Graph) (id : String) : Option NodeData :=
  match g.nodes.find? (fun p => p.1 == id) with
  | some p => p.2
  | none => none

/-- `data.get("name", node_id)`. -/
def nodeNameD (g : Graph) (id : String) : String :=
  match g.nodeData id with
  | some d => d.name
  | none => id

/-- `data.get("type", "UNKNOWN")`. -/
def nodeTypeD (g : Graph) (id : String) : String :=
  match g.nodeData id with
  | some d => d.type
  | none => "UNKNOWN"

/-- `data.get("file_path", "")`. -/
def nodeFileD (g : Graph) (id : String) : String :=
  match g.nodeData id with
  | some d => d.file_path
  | none => ""

/-- `data.get("line_number", 0)`. -/
def nodeLineD (g : Graph) (id : String) : Nat :=
  match g.nodeData id with
  | some d => d.line_number
  | none => 0

/-- `data.get("confidence", "high")`. -/
def nodeConfD (g : Graph) (id : String) : String :=
  match g.nodeData id with
  | some d => d.confidence
  | none => "high"

/-- `data.get("code_snippet", "")`. -/
def nodeSnippetD (g : Graph) (id : String) : String :=
  match g.nodeData id with
  | some d => d.code_snippet
  | none => ""

/-- `data.get("metadata", {})`. -/
def nodeMetaD (g : Graph) (id : String) : Metadata :=
  match g.nodeData id with
  | some d => d.metadata
  | none => emptyMetadata

/-- `graph.get_edge_data(s, t)`: the stored record for the ordered pair. -/
def Graph.edgeData? (g : Graph) (s t : String) : Option EdgeData :=
  match g.edges.find? (fun e => e.1 == s && e.2.1 == t) with
  | some e => some e.2.2
  | none => none

/-- `get_edge_data(s, t, {}).get("relationship", dflt)`. -/
def edgeRelD (g : Graph) (s t dflt : String) : String :=
  match g.edgeData? s t with
  | some d => d.relationship
  | none => dflt

/-- `get_edge_data(s, t, {}).get("relationship")` (no default). -/
def edgeRelOpt (g : Graph) (s t : String) : Option String :=
  match g.edgeData? s t with
  | some d => some d.relationship
  | none => none

/-- `get_edge_data(s, t, {}).get("context", "")`. -/
def edgeCtxD (g : Graph) (s t : String) : String :=
  match g.edgeData? s t with
  | some d => d.context
  | none => ""

/-- `get_edge_data(s, t, {}).get("confidence", "high")`. -/
def edgeConfD (g : Graph) (s t : String) : String :=
  match g.edgeData? s t with
  | some d => d.confidence
  | none => "high"

/-- Edge records leaving `u` (`graph.out_edges(u)`). -/
def Graph.outEdges (g : Graph) (u : String) : List (String × String × EdgeData) :=
  g.edges.filter (fun e => e.1 == u)

/-- Edge records entering `u` (`graph.in_edges(u)`). -/
def Graph.inEdges (g : Graph) (u : String) : List (String × String × EdgeData) :=
  g.edges.filter (fun e => e.2.1 == u)

/-- Successors of `u` in edge-list order. -/
def Graph.succs (g : Graph) (u : String) : List String := (g.outEdges u).map (fun e => e.2.1)

/-- Predecessors of `u` in edge-list order. -/
def Graph.preds (g : Graph) (u : String) : List String := (g.inEdges u).map (fun e => e.1)

/-- The invariants every `networkx.DiGraph` maintains by construction: node
ids are unique, there is at most one edge record per ordered pair, and every
edge endpoint is present in the node set. -/
def Graph.WF (g : Graph) : Prop :=
  (g.nodes.map Prod.fst).Nodup
  ∧ (g.edges.map (fun e => (e.1, e.2.1))).Nodup
  ∧ ∀ e ∈ g.edges, g.hasNode e.1 = true ∧ g.hasNode e.2.1 = true

instance (g : Graph) : Decidable g.WF := by
  unfold Graph.WF; infer_instance

/-! ## Query engine (`graph_queries.py`) -/

/-- `Direction` enum. -/
inductive Direction where
  | forward
  | backward
  | both
deriving Repr, DecidableEq, BEq

/-- `PathStep` dataclass. -/
structure PathStep where
  node_id : String
  node_name : String
  node_type : String
  file_path : String
  line_number : Nat
  edge_type : Option String
  edge_context : Option String
  confidence : String
deriving Repr, DecidableEq

/-- `PathResult` dataclass. -/
structure PathResult where
  source : String
  target : String
  found : Bool
  paths : List (List PathStep)
  total_paths : Nat
  shortest_length : Nat
  confidence : String
deriving Repr, DecidableEq

/-- Depth-bounded simple-path enumeration: the DFS of
`networkx.all_simple_paths` (each path is a node list from the source to the
target, no repeated node, at most `cutoff` edges). -/
def simplePathsAux (g : Graph) (target : String) : Nat → String → List String → List (List String)
  | 0, _, _ => []
  | d + 1, u, vis =>
    (g.succs u).flatMap fun v =>
      if v == target then [vis ++ [target]]
      else if vis.contains v then []
      else simplePathsAux g target d v (vis ++ [v])

/-- `list(nx.all_simple_paths(graph, s, t, cutoff))`; empty when `s == t` or
the cutoff is below 1, as in networkx. -/
def allSimplePaths (g : Graph) (s t : String) (cutoff : Nat) : List (List String) :=
  if s == t then [] else simplePathsAux g t cutoff s [s]

/-- Ascending-length order used by `all_paths.sort(key=len)`. -/
def lenLe {α : Type} (a b : List α) : Prop := a.length ≤ b.length

instance {α : Type} : DecidableRel (@lenLe α) := fun a b => Nat.decLe a.length b.length

instance {α : Type} : IsTotal (List α) lenLe := ⟨fun a b => Nat.le_total a.length b.length⟩

instance {α : Type} : IsTrans (List α) lenLe := ⟨fun _ _ _ => Nat.le_trans⟩

/-- Python's `list.sort(key=len)` is a stable ascending sort; the stable
ascending sort of a list is unique, so the structurally recursive insertion
sort computes it. -/
def sortByLen {α : Type} (ps : List (List α)) : List (List α) := ps.insertionSort lenLe

/-- Adjacent pairs of a path: its traversed edges. -/
def adjPairs {α : Type} : List α → List (α × α)
  | [] => []
  | [_] => []
  | a :: b :: rest => (a, b) :: adjPairs (b :: rest)

/-- The last element of a list, with a default for the empty list
(structurally recursive so statements about it unfold step by step). -/
def lastD {α : Type} (d : α) : List α → α
  | [] => d
  | a :: rest => lastD a rest

/-- `min(len(p) - 1 for p in all_paths)` (0 on the empty list, which the code
never queries). -/
def minHops (ps : List (List String)) : Nat :=
  match ps.map (fun p => p.length - 1) with
  | [] => 0
  | x :: xs => xs.foldl Nat.min x

/-- One degradation step of the per-path confidence tracker in `find_path`:
`"medium" if path_confidence == "high" else "low"`. -/
def degradeConf (c : String) : String := if c == "high" then "medium" else "low"

/-- Whether an edge confidence is in `("low", "ambiguous")`. -/
def isBadConf (c : String) : Bool := c == "low" || c == "ambiguous"

/-- The per-path confidence computed by `find_path`: start at `"high"` and
degrade once for every traversed edge whose confidence is low/ambiguous. -/
def pathConfidence (g : Graph) (p : List String) : String :=
  (adjPairs p).foldl
    (fun acc uv => if isBadConf (edgeConfD g uv.1 uv.2) then degradeConf acc else acc) "high"

/-- `if "low" in confidences ... elif "medium" in confidences ...`. -/
def overallConfOf (confs : List String) : String :=
  if confs.contains "low" then "low"
  else if confs.contains "medium" then "medium"
  else "high"

/-- A `PathStep` for a node, before edge annotation. -/
def mkStep (g : Graph) (u : String) : PathStep :=
  { node_id := u
    node_name := nodeNameD g u
    node_type := nodeTypeD g u
    file_path := shortPath (nodeFileD g u)
    line_number := nodeLineD g u
    edge_type := none
    edge_context := none
    confidence := nodeConfD g u }

/-- The step list for one path: each non-final step is annotated with the edge
to its successor (`path_steps[-1].edge_type = ...`). -/
def pathSteps (g : Graph) : List String → List PathStep
  | [] => []
  | [u] => [mkStep g u]
  | u :: v :: rest =>
    { mkStep g u with
        edge_type := some (edgeRelD g u v "?")
        edge_context := some (edgeCtxD g u v) } :: pathSteps g (v :: rest)

/-- The length-sorted enumeration truncated to `max_paths`: the paths
`find_path` reports. -/
def selectedPaths (g : Graph) (s t : String) (max_depth max_paths : Nat) : List (List String) :=
  (sortByLen (allSimplePaths g s t max_depth)).take max_paths

/-- `GraphQueries.find_path`. -/
def find_path (g : Graph) (source_id target_id : String) (max_depth max_paths : Nat) : PathResult :=
  let base : PathResult :=
    { source := nodeNameD g source_id
      target := nodeNameD g target_id
      found := false
      paths := []
      total_paths := 0
      shortest_length := 0
      confidence := "high" }
  if g.hasNode source_id && g.hasNode target_id then
    let all := allSimplePaths g source_id target_id max_depth
    if all.isEmpty then base
    else
      let chosen := selectedPaths g source_id target_id max_depth max_paths
      { base with
          found := true
          total_paths := all.length
          shortest_length := minHops all
          paths := chosen.map (pathSteps g)
          confidence := overallConfOf (chosen.map (pathConfidence g)) }
  else base

/-- One recorded dependency of `find_dependencies`. -/
structure DepEntry where
  id : String
  name : String
  type : String
  file : String
  line : Nat
  depth : Nat
  edge_type : Option String
  confidence : String
deriving Repr, DecidableEq

/-- `DependencyResult` dataclass. -/
structure DependencyResult where
  node_id : String
  node_name : String
  direction : Direction
  depth : Nat
  dependencies : List DepEntry
  total_count : Nat
deriving Repr, DecidableEq

/-- A `to_visit` queue entry `(id, depth, edge_type, from_id)`. -/
structure QEntry where
  id : String
  depth : Nat
  rel : Option String
  from_id : Option String
deriving Repr, DecidableEq

/-- The dependency record appended for a newly visited queue entry. -/
def mkDepEntry (g : Graph) (e : QEntry) : DepEntry :=
  { id := e.id
    name := nodeNameD g e.id
    type := nodeTypeD g e.id
    file := shortPath (nodeFileD g e.id)
    line := nodeLineD g e.id
    depth := e.depth
    edge_type := e.rel
    confidence := nodeConfD g e.id }

/-- Forward enqueueing: unvisited successors at the next depth. -/
def fwdEnqueue (g : Graph) (u : String) (d : Nat) (visited : List String) : List QEntry :=
  (g.succs u).filterMap fun v =>
    if visited.contains v then none
    else some { id := v, depth := d + 1, rel := edgeRelOpt g u v, from_id := some u }

/-- Backward enqueueing: unvisited predecessors at the next depth. -/
def bwdEnqueue (g : Graph) (u : String) (d : Nat) (visited : List String) : List QEntry :=
  (g.preds u).filterMap fun v =>
    if visited.contains v then none
    else some { id := v, depth := d + 1, rel := edgeRelOpt g v u, from_id := some u }

/-- The FIFO worklist of `find_dependencies`.  The fuel only bounds the number
of pops; `2 * |edges| + 2` pops always suffice because every node is expanded
at most once and each expansion enqueues at most its degree. -/
def findDepsLoop (g : Graph) (dir : Direction) (start : String) (maxDepth : Nat) :
    Nat → List String → List QEntry → List DepEntry → List DepEntry
  | 0, _, _, deps => deps
  | _ + 1, _, [], deps => deps
  | fuel + 1, visited, e :: queue, deps =>
    if visited.contains e.id || decide (maxDepth < e.depth) then
      findDepsLoop g dir start maxDepth fuel visited queue deps
    else
      let visited' := e.id :: visited
      let deps' := if e.id == start then deps else deps ++ [mkDepEntry g e]
      let fwd := if dir == Direction.forward || dir == Direction.both then
        fwdEnqueue g e.id e.depth visited' else []
      let bwd := if dir == Direction.backward || dir == Direction.both then
        bwdEnqueue g e.id e.depth visited' else []
      findDepsLoop g dir start maxDepth fuel visited' (queue ++ fwd ++ bwd) deps'

/-- `GraphQueries.find_dependencies`. -/
def find_dependencies (g : Graph) (node_id : String) (direction : Direction) (depth : Nat) :
    DependencyResult :=
  let base : DependencyResult :=
    { node_id := node_id
      node_name := nodeNameD g node_id
      direction := direction
      depth := depth
      dependencies := []
      total_count := 0 }
  if g.hasNode node_id then
    let deps := findDepsLoop g direction node_id depth (2 * g.edges.length + 2) []
      [{ id := node_id, depth := 0, rel := none, from_id := none }] []
    { base with dependencies := deps, total_count := deps.length }
  else base

/-- One usage record of `find_usages`. -/
structure UsageEntry where
  id : String
  name : String
  type : String
  file : String
  line : Nat
  edge_type : String
  context : String
  confidence : String
deriving Repr, DecidableEq

/-- `UsageResult` dataclass. -/
structure UsageResult where
  node_id : String
  node_name : String
  node_type : String
  usages : List UsageEntry
  total_count : Nat
deriving Repr, DecidableEq

/-- `GraphQueries.find_usages`. -/
def find_usages (g : Graph) (node_id : String) : UsageResult :=
  let base : UsageResult :=
    { node_id := node_id
      node_name := nodeNameD g node_id
      node_type := nodeTypeD g node_id
      usages := []
      total_count := 0 }
  if g.hasNode node_id then
    let us := (g.inEdges node_id).map fun e =>
      { id := e.1
        name := nodeNameD g e.1
        type := nodeTypeD g e.1
        file := shortPath (nodeFileD g e.1)
        line := nodeLineD g e.1
        edge_type := edgeRelD g e.1 node_id "UNKNOWN"
        context := edgeCtxD g e.1 node_id
        confidence := edgeConfD g e.1 node_id }
    { base with usages := us, total_count := us.length }
  else base

/-- One callee record of `find_callees`. -/
structure CalleeEntry where
  id : String
  name : String
  type : String
  file : String
  line : Nat
  context : String
deriving Repr, DecidableEq

/-- `GraphQueries.find_callees`. -/
def find_callees (g : Graph) (function_id : String) : List CalleeEntry :=
  if g.hasNode function_id then
    (g.outEdges function_id).filterMap fun e =>
      if edgeRelOpt g function_id e.2.1 == some "CALLS" then
        some { id := e.2.1
               name := nodeNameD g e.2.1
               type := nodeTypeD g e.2.1
               file := shortPath (nodeFileD g e.2.1)
               line := nodeLineD g e.2.1
               context := edgeCtxD g function_id e.2.1 }
      else none
  else []

/-- One match of `find_node_by_name`. -/
structure FoundNode where
  id : String
  name : String
  type : String
  file : String
  line : Nat
  confidence : String
deriving Repr, DecidableEq

/-- `GraphQueries.find_node_by_name`.  A `none` filter models the Python
`None` argument (and the empty string, which is likewise falsy there). -/
def find_node_by_name (g : Graph) (name : String) (node_type : Option String)
    (file_pattern : Option String) (exact : Bool) : List FoundNode :=
  g.nodes.filterMap fun p =>
    let node_name := match p.2 with | some d => d.name | none => ""
    let nameOk := if exact then node_name == name
      else strContains (lowerStr node_name) (lowerStr name)
    let typeOk := match node_type with
      | none => true
      | some nt => nt == "" || (match p.2 with | some d => some d.type | none => none) == some nt
    let fileOk := match file_pattern with
      | none => true
      | some fp =>
        fp == "" || strContains (lowerStr (match p.2 with | some d => d.file_path | none => ""))
          (lowerStr fp)
    if nameOk && typeOk && fileOk then
      some { id := p.1
             name := node_name
             type := match p.2 with | some d => d.type | none => "UNKNOWN"
             file := shortPath (match p.2 with | some d => d.file_path | none => "")
             line := match p.2 with | some d => d.line_number | none => 0
             confidence := match p.2 with | some d => d.confidence | none => "high" }
    else none

/-! ## Dependency analyzer (`dependency_analyzer.py`) -/

/-- The `{id, name, type, file, line}` record used both for cycle members and
dead-code reports. -/
structure NodeInfo where
  id : String
  name : String
  type : String
  file : String
  line : Nat
deriving Repr, DecidableEq

/-- `CircularDependency` dataclass. -/
structure CircularDependency where
  cycle : List NodeInfo
  cycle_length : Nat
  severity : String
  cycle_type : String
deriving Repr, DecidableEq

/-- `CircularDependencyResult` dataclass (`by_type` as an association list in
first-seen order). -/
structure CircularDependencyResult where
  total_cycles : Nat
  cycles : List CircularDependency
  by_type : List (String × Nat)
deriving Repr, DecidableEq

/-- Append keeping first occurrence only (insertion order of a Python set
built by repeated adds). -/
def addUnique (l : List String) (x : String) : List String :=
  if l.contains x then l else l ++ [x]

/-- The node list `nx.DiGraph(edge_list)` builds: each edge adds its source
then its target, first occurrence kept. -/
def nodesFromPairs (ps : List (String × String)) : List String :=
  ps.foldl (fun acc p => addUnique (addUnique acc p.1) p.2) []

/-- `nx.DiGraph(edge_list)`: a graph over the listed pairs only; the new
edges carry an empty attribute dictionary (only adjacency is ever consulted
on such subgraphs), modelled by a blank `EdgeData`. -/
def filteredSubgraph (ps : List (String × String)) : Graph :=
  { nodes := (nodesFromPairs ps).map (fun id => (id, none))
    edges := ps.map (fun p =>
      (p.1, p.2, ({ relationship := "", context := "", metadata := emptyMetadata,
                    confidence := "" } : EdgeData))) }

/-- Simple cycles rooted at `root` that stay inside `allowed`: simple paths
from `root` back to itself through allowed, unvisited nodes.  `vis` is the
node list accumulated so far (starting at `[root]`), which is emitted as the
cycle when an edge back to `root` is found. -/
def cycPathsAux (g : Graph) (root : String) (allowed : List String) :
    Nat → String → List String → List (List String)
  | 0, _, _ => []
  | d + 1, u, vis =>
    (g.succs u).flatMap fun v =>
      if v == root then [vis]
      else if !(allowed.contains v) || vis.contains v then []
      else cycPathsAux g root allowed d v (vis ++ [v])

/-- Enumerate the elementary cycles whose first-in-graph-order node is the
head of the suffix; together over all suffixes this lists every elementary
cycle exactly once, as `nx.simple_cycles` does (in a possibly different
order: only the `max_cycles` truncation depends on enumeration order). -/
def simpleCyclesFrom (g : Graph) : List String → List (List String)
  | [] => []
  | v :: rest => cycPathsAux g v (v :: rest) g.nodes.length v [v] ++ simpleCyclesFrom g rest

/-- `list(nx.simple_cycles(graph))` as a set of cycles, each an elementary
cycle written from its first-in-graph-order node without repeating it. -/
def simpleCyclesList (g : Graph) : List (List String) :=
  simpleCyclesFrom g (g.nodes.map Prod.fst)

/-- The cyclically closed adjacent pairs of a cycle's node list
(`(node_id, cycle_nodes[(i + 1) % len])` for each position). -/
def cycPairsAux {α : Type} (first cur : α) : List α → List (α × α)
  | [] => [(cur, first)]
  | b :: rest => (cur, b) :: cycPairsAux first b rest

/-- All edges walked around a cycle, wrapping back to the first node. -/
def cycPairs {α : Type} : List α → List (α × α)
  | [] => []
  | a :: rest => cycPairsAux a a rest

/-- The relationship labels collected into `cycle_types`, with the
`"UNKNOWN"` default of `edge_data.get("relationship", "UNKNOWN")`. -/
def cycleRels (g : Graph) (cyc : List String) : List String :=
  (cycPairs cyc).map (fun uv => edgeRelD g uv.1 uv.2 "UNKNOWN")

/-- The `cycle_type` classification branch of `detect_circular_dependencies`. -/
def classifyCycleType (rels : List String) : String :=
  if rels.contains "CALLS" then "call"
  else if rels.contains "EMITS" || rels.contains "CONNECTS_TO" then "signal"
  else if rels.contains "REFERENCES" then "resource"
  else "data"

/-- The length-based `severity` branch of `detect_circular_dependencies`. -/
def classifySeverity (n : Nat) : String :=
  if n ≤ 2 then "high" else if n ≤ 4 then "medium" else "low"

/-- The `{id, name, type, file, line}` record of a cycle member (node data
read from the unfiltered graph). -/
def mkNodeInfo (g : Graph) (id : String) : NodeInfo :=
  { id := id
    name := nodeNameD g id
    type := nodeTypeD g id
    file := shortPath (nodeFileD g id)
    line := nodeLineD g id }

/-- The `CircularDependency` object built for one cycle (edge labels are read
from the unfiltered graph, as in the code). -/
def mkCycle (g : Graph) (cyc : List String) : CircularDependency :=
  { cycle := cyc.map (mkNodeInfo g)
    cycle_length := cyc.length
    severity := classifySeverity cyc.length
    cycle_type := classifyCycleType (cycleRels g cyc) }

/-- Increment a key of the `by_type` association counter. -/
def bumpCount (m : List (String × Nat)) (k : String) : List (String × Nat) :=
  if m.any (fun p => p.1 == k) then
    m.map (fun p => if p.1 == k then (p.1, p.2 + 1) else p)
  else m ++ [(k, 1)]

/-- `DependencyAnalyzer.detect_circular_dependencies`.  A `none` or empty
`edge_types` filter (both falsy in Python) searches the whole graph. -/
def detect_circular_dependencies (g : Graph) (edge_types : Option (List String))
    (max_cycles : Nat) : CircularDependencyResult :=
  let sub :=
    match edge_types with
    | some ets =>
      if ets.isEmpty then g
      else filteredSubgraph
        ((g.edges.filter (fun e => ets.contains e.2.2.relationship)).map (fun e => (e.1, e.2.1)))
    | none => g
  let kept := ((simpleCyclesList sub).take max_cycles).filter (fun c => 2 ≤ c.length)
  let objs := kept.map (mkCycle g)
  { total_cycles := objs.length
    cycles := objs
    by_type := (objs.map (fun c => c.cycle_type)).foldl bumpCount [] }

/-- `DeadCodeResult` dataclass. -/
structure DeadCodeResult where
  total_unreachable : Nat
  unreachable_functions : List NodeInfo
  unreachable_classes : List NodeInfo
  unreachable_signals : List NodeInfo
  entry_points_used : List String
  total_reachable : Nat
deriving Repr, DecidableEq

/-- The Godot lifecycle callbacks treated as entry points. -/
def lifecycleNames : List String :=
  ["_ready", "_process", "_physics_process", "_input",
   "_unhandled_input", "_notification", "_init",
   "_enter_tree", "_exit_tree"]

/-- The default entry-point glob patterns. -/
def defaultEntryPatterns : List String := ["**/autoload/*.gd", "**/main.tscn", "**/main.gd"]

/-- Truthiness of `metadata.get("defined_in_scene")` (the parsers store the
Python bool `True`). -/
def metaTruthyScene (m : Metadata) : Bool := m.defined_in_scene == some true

/-- The entry-point seed of `detect_dead_code`: pattern-matched files (the
stdlib `fnmatch` is passed in as `fm`), lifecycle-named functions, scenes,
and scene-declared signal connections. -/
def entryIds (fm : String → String → Bool) (pats : List String) (g : Graph) : List String :=
  g.nodes.filterMap fun p =>
    let fileP := match p.2 with | some d => d.file_path | none => ""
    let tp := match p.2 with | some d => d.type | none => ""
    let nm := match p.2 with | some d => d.name | none => ""
    let md := match p.2 with | some d => d.metadata | none => emptyMetadata
    if pats.any (fun pat => fm (shortPath fileP) pat)
        || (tp == "FUNCTION" && lifecycleNames.contains nm)
        || tp == "SCENE"
        || (tp == "SIGNAL_CONNECTION" && metaTruthyScene md) then
      some p.1
    else none

/-- The relationships whose incoming edges pull their source into the
reachable set. -/
def crcRels : List String := ["CALLS", "REFERENCES", "CONNECTS_TO"]

/-- Push a list onto a stack in Python append order (the last pushed element
is popped first). -/
def pushList (xs : List String) (stack : List String) : List String :=
  xs.foldl (fun st x => x :: st) stack

/-- The reachability worklist of `detect_dead_code` (a LIFO stack): forward
closure along outgoing edges, plus sources of incoming
CALLS/REFERENCES/CONNECTS_TO edges.  The fuel only bounds the number of pops;
`|nodes| + 2 * |edges| + 2` always suffice. -/
def reachLoop (g : Graph) : Nat → List String → List String → List String
  | 0, reach, _ => reach
  | _ + 1, reach, [] => reach
  | fuel + 1, reach, cur :: stack =>
    if reach.contains cur then reachLoop g fuel reach stack
    else
      let reach' := cur :: reach
      let outs := (g.succs cur).filter (fun t => !(reach'.contains t))
      let ins := (g.preds cur).filter fun s =>
        (match edgeRelOpt g s cur with
         | some r => crcRels.contains r
         | none => false) && !(reach'.contains s)
      reachLoop g fuel reach' (pushList (outs ++ ins) stack)

/-- The reachable set computed by `detect_dead_code` for a given seed. -/
def reachableSet (g : Graph) (entries : List String) : List String :=
  reachLoop g (g.nodes.length + 2 * g.edges.length + 2) [] (pushList entries [])

/-- Node kinds skipped by the dead-code report as likely false positives. -/
def reportSkipTypes : List String := ["NODE_REFERENCE", "RESOURCE", "AMBIGUOUS", "UNKNOWN"]

/-- The underscore-named functions still reported despite the
private-function suppression. -/
def privateExempt : List String := ["_ready", "_process", "_physics_process"]

/-- Whether any incoming edge of the signal is an `EMITS` edge. -/
def signalHasEmitter (g : Graph) (id : String) : Bool :=
  (g.preds id).any (fun s => edgeRelOpt g s id == some "EMITS")

/-- Whether any outgoing edge of the signal is a `CONNECTS_TO` edge. -/
def signalHasConnection (g : Graph) (id : String) : Bool :=
  (g.succs id).any (fun t => edgeRelOpt g id t == some "CONNECTS_TO")

/-- The report record for one node of the dead-code scan (built from the
iterated node data). -/
def deadNodeInfo (p : String × Option NodeData) : NodeInfo :=
  { id := p.1
    name := match p.2 with | some d => d.name | none => ""
    type := match p.2 with | some d => d.type | none => ""
    file := shortPath (match p.2 with | some d => d.file_path | none => "")
    line := match p.2 with | some d => d.line_number | none => 0 }

/-- The common skip conditions of the dead-code report loop for one node. -/
def deadCodeSkip (reach : List String) (p : String × Option NodeData) : Bool :=
  let tp := match p.2 with | some d => d.type | none => ""
  let nm := match p.2 with | some d => d.name | none => ""
  reach.contains p.1
    || reportSkipTypes.contains tp
    || (tp == "FUNCTION" && startsWithStr nm "_" && !(privateExempt.contains nm))

/-- `DependencyAnalyzer.detect_dead_code`.  `fm` is the stdlib
`fnmatch.fnmatch`, passed in as a parameter of the embedding. -/
def detect_dead_code (fm : String → String → Bool) (g : Graph)
    (entry_points : Option (List String)) : DeadCodeResult :=
  let pats := entry_points.getD defaultEntryPatterns
  let entries := entryIds fm pats g
  let reach := reachableSet g entries
  let funcs := g.nodes.filterMap fun p =>
    if !(deadCodeSkip reach p) && (match p.2 with | some d => d.type | none => "") == "FUNCTION"
    then some (deadNodeInfo p) else none
  let classes := g.nodes.filterMap fun p =>
    if !(deadCodeSkip reach p) && (match p.2 with | some d => d.type | none => "") == "CLASS"
    then some (deadNodeInfo p) else none
  let signals := g.nodes.filterMap fun p =>
    if !(deadCodeSkip reach p) && (match p.2 with | some d => d.type | none => "") == "SIGNAL"
        && !(signalHasEmitter g p.1) && !(signalHasConnection g p.1)
    then some (deadNodeInfo p) else none
  { total_unreachable := funcs.length + classes.length + signals.length
    unreachable_functions := funcs
    unreachable_classes := classes
    unreachable_signals := signals
    entry_points_used := (entries.take 20).map (fun id => nodeNameD g id)
    total_reachable := reach.length }

/-- One direct-impact record of `analyze_impact`. -/
structure DirectEntry where
  id : String
  name : String
  type : String
  file : String
  line : Nat
  relationship : String
deriving Repr, DecidableEq

/-- One indirect-impact record of `analyze_impact`. -/
structure IndirectEntry where
  id : String
  name : String
  type : String
  file : String
  line : Nat
  depth : Nat
deriving Repr, DecidableEq

/-- `ImpactResult` dataclass (`affected_files` models the Python set as a
duplicate-free list in insertion order). -/
structure ImpactResult where
  node_id : String
  node_name : String
  node_type : String
  direct_impact : List DirectEntry
  indirect_impact : List IndirectEntry
  total_affected : Nat
  affected_files : List String
  risk_level : String
deriving Repr, DecidableEq

/-- `affected_files.add(file_path)` guarded by `if file_path:`. -/
def addFile (files : List String) (f : String) : List String :=
  if f == "" then files else if files.contains f then files else files ++ [f]

/-- The fixed-threshold risk classification of `analyze_impact`. -/
def riskOf (total files : Nat) : String :=
  if 50 < total || 10 < files then "critical"
  else if 20 < total || 5 < files then "high"
  else if 5 < total then "medium"
  else "low"

/-- State threaded through the indirect-impact sweep. -/
structure ImpState where
  visited : List String
  indirect : List IndirectEntry
  files : List String
  next_level : List String
deriving Repr, DecidableEq

/-- Visit all incoming-edge sources of one frontier node at depth `d`. -/
def impactVisit (g : Graph) (directIds : List String) (d : Nat)
    (st : ImpState) (current_id : String) : ImpState :=
  (g.preds current_id).foldl
    (fun st source =>
      if st.visited.contains source then st
      else
        let fileP := shortPath (nodeFileD g source)
        { visited := source :: st.visited
          indirect :=
            if directIds.contains source then st.indirect
            else st.indirect ++
              [{ id := source
                 name := nodeNameD g source
                 type := nodeTypeD g source
                 file := fileP
                 line := nodeLineD g source
                 depth := d }]
          files := addFile st.files fileP
          next_level := st.next_level ++ [source] })
    st

/-- The `for d in range(1, depth + 1)` sweep of `analyze_impact`. -/
def impactLoop (g : Graph) (directIds : List String) :
    Nat → Nat → List String → List String → List IndirectEntry → List String →
    List IndirectEntry × List String
  | 0, _, _, _, ind, files => (ind, files)
  | k + 1, d, level, visited, ind, files =>
    let st := level.foldl (impactVisit g directIds d)
      { visited := visited, indirect := ind, files := files, next_level := [] }
    impactLoop g directIds k (d + 1) st.next_level st.visited st.indirect st.files

/-- `DependencyAnalyzer.analyze_impact`. -/
def analyze_impact (g : Graph) (node_id : String) (depth : Nat) : ImpactResult :=
  let base : ImpactResult :=
    { node_id := node_id
      node_name := nodeNameD g node_id
      node_type := nodeTypeD g node_id
      direct_impact := []
      indirect_impact := []
      total_affected := 0
      affected_files := []
      risk_level := "low" }
  if g.hasNode node_id then
    let direct := (g.inEdges node_id).map fun e =>
      { id := e.1
        name := nodeNameD g e.1
        type := nodeTypeD g e.1
        file := shortPath (nodeFileD g e.1)
        line := nodeLineD g e.1
        relationship := edgeRelD g e.1 node_id "UNKNOWN" : DirectEntry }
    let files0 := (g.inEdges node_id).foldl
      (fun fs e => addFile fs (shortPath (nodeFileD g e.1))) []
    let directIds := direct.map (fun d => d.id)
    let pr := impactLoop g directIds depth 1 [node_id] [node_id] [] files0
    let total := direct.length + pr.1.length
    { base with
        direct_impact := direct
        indirect_impact := pr.1
        total_affected := total
        affected_files := pr.2
        risk_level := riskOf total pr.2.length }
  else base

/-- `DependencyAnalyzer.find_highly_coupled_nodes` entry. -/
structure CoupledEntry where
  id : String
  name : String
  type : String
  file : String
  line : Nat
  in_degree : Nat
  out_degree : Nat
  total_connections : Nat
deriving Repr, DecidableEq

/-- `DependencyAnalyzer.find_highly_coupled_nodes`. -/
def find_highly_coupled_nodes (g : Graph) (min_connections : Nat) : List CoupledEntry :=
  let raw := g.nodes.filterMap fun p =>
    let ind := (g.inEdges p.1).length
    let outd := (g.outEdges p.1).length
    if min_connections ≤ ind + outd then
      some { id := p.1
             name := nodeNameD g p.1
             type := nodeTypeD g p.1
             file := shortPath (nodeFileD g p.1)
             line := nodeLineD g p.1
             in_degree := ind
             out_degree := outd
             total_connections := ind + outd }
    else none
  raw.insertionSort (fun a b => b.total_connections ≤ a.total_connections)

/-! ## Flow tracer (`flow_tracer.py`) -/

/-- `FlowStep` dataclass. -/
structure FlowStep where
  node_id : String
  node_name : String
  node_type : String
  file_path : String
  line_number : Nat
  action : String
  context : String
  code_snippet : String
deriving Repr, DecidableEq

/-- `VariableFlowResult` dataclass. -/
structure VariableFlowResult where
  variable_name : String
  variable_id : Option String
  found : Bool
  definition : Option FlowStep
  writes : List FlowStep
  reads : List FlowStep
  total_usages : Nat
deriving Repr, DecidableEq

/-- The definition step built for one matched variable. -/
def varDefStep (g : Graph) (m : FoundNode) : FlowStep :=
  { node_id := m.id
    node_name := m.name
    node_type := "VARIABLE"
    file_path := shortPath m.file
    line_number := m.line
    action := "DEFINE"
    context := ""
    code_snippet := nodeSnippetD g m.id }

/-- The flow step built for one incoming edge of a matched variable
(`action` is `edge_data.get("relationship", "")`). -/
def varUsageStep (g : Graph) (varId source : String) : FlowStep :=
  { node_id := source
    node_name := nodeNameD g source
    node_type := nodeTypeD g source
    file_path := shortPath (nodeFileD g source)
    line_number := nodeLineD g source
    action := (match edgeRelOpt g source varId with | some r => r | none => "")
    context := edgeCtxD g source varId
    code_snippet := "" }

/-- The incoming-edge steps of one matched variable that are `WRITES` edges. -/
def varWrites (g : Graph) (varId : String) : List FlowStep :=
  (g.preds varId).filterMap fun source =>
    if edgeRelOpt g source varId == some "WRITES" then some (varUsageStep g varId source)
    else none

/-- The incoming-edge steps of one matched variable that are `READS` edges. -/
def varReads (g : Graph) (varId : String) : List FlowStep :=
  (g.preds varId).filterMap fun source =>
    if edgeRelOpt g source varId == some "READS" then some (varUsageStep g varId source)
    else none

/-- Accumulator of the per-match loop of `trace_variable_flow`. -/
structure VarAcc where
  variable_id : Option String
  definition : Option FlowStep
  writes : List FlowStep
  reads : List FlowStep
deriving Repr, DecidableEq

/-- One iteration of the per-match loop of `trace_variable_flow`: overwrite
the id and definition, append this match's writes and reads. -/
def varVisitMatch (g : Graph) (acc : VarAcc) (m : FoundNode) : VarAcc :=
  { variable_id := some m.id
    definition := some (varDefStep g m)
    writes := acc.writes ++ varWrites g m.id
    reads := acc.reads ++ varReads g m.id }

/-- `FlowTracer.trace_variable_flow`. -/
def trace_variable_flow (g : Graph) (variable_name : String) (starting_file : Option String) :
    VariableFlowResult :=
  let base : VariableFlowResult :=
    { variable_name := variable_name
      variable_id := none
      found := false
      definition := none
      writes := []
      reads := []
      total_usages := 0 }
  let ms := find_node_by_name g variable_name (some "VARIABLE") starting_file false
  if ms.isEmpty then base
  else
    let acc := ms.foldl (varVisitMatch g)
      { variable_id := none, definition := none, writes := [], reads := [] }
    { base with
        found := true
        variable_id := acc.variable_id
        definition := acc.definition
        writes := acc.writes
        reads := acc.reads
        total_usages := acc.writes.length + acc.reads.length }

/-- `ExecutionPathResult` dataclass: note that it carries no confidence
field of any kind. -/
structure ExecutionPathResult where
  start_function : String
  end_function : String
  found : Bool
  paths : List (List FlowStep)
  total_paths : Nat
  shortest_length : Nat
deriving Repr, DecidableEq

/-- The CALLS-only subgraph `nx.DiGraph(call_edges)` built by
`trace_execution_path`. -/
def callGraphOf (g : Graph) : Graph :=
  filteredSubgraph
    ((g.edges.filter (fun e => e.2.2.relationship == "CALLS")).map (fun e => (e.1, e.2.1)))

/-- The union of the simple-path enumerations over every combination of
matching start and end function nodes (the `all_paths` list of
`trace_execution_path`). -/
def execPathEnum (g : Graph) (start_function end_function : String) (max_depth : Nat) :
    List (List String) :=
  let cg := callGraphOf g
  (find_node_by_name g start_function (some "FUNCTION") none false).flatMap fun sn =>
    (find_node_by_name g end_function (some "FUNCTION") none false).flatMap fun en =>
      if cg.hasNode sn.id && cg.hasNode en.id then allSimplePaths cg sn.id en.id max_depth
      else []

/-- One flow step of an execution path (node data read from the original
graph; the hop action names the callee). -/
def mkExecStep (g : Graph) (u : String) (act : String) : FlowStep :=
  { node_id := u
    node_name := nodeNameD g u
    node_type := "FUNCTION"
    file_path := shortPath (nodeFileD g u)
    line_number := nodeLineD g u
    action := act
    context := ""
    code_snippet := "" }

/-- The step list of one execution path. -/
def execSteps (g : Graph) : List String → List FlowStep
  | [] => []
  | [u] => [mkExecStep g u ""]
  | u :: v :: rest => mkExecStep g u ("CALLS " ++ nodeNameD g v ++ "()") :: execSteps g (v :: rest)

/-- `FlowTracer.trace_execution_path`. -/
def trace_execution_path (g : Graph) (start_function end_function : String) (max_depth : Nat) :
    ExecutionPathResult :=
  let base : ExecutionPathResult :=
    { start_function := start_function
      end_function := end_function
      found := false
      paths := []
      total_paths := 0
      shortest_length := 0 }
  if (find_node_by_name g start_function (some "FUNCTION") none false).isEmpty
      || (find_node_by_name g end_function (some "FUNCTION") none false).isEmpty then base
  else
    let all := execPathEnum g start_function end_function max_depth
    if all.isEmpty then base
    else
      { base with
          found := true
          total_paths := all.length
          shortest_length := minHops all
          paths := ((sortByLen all).take 5).map (execSteps g) }

/-- One signal-to-handler connection record of `trace_signal_flow`. -/
structure ConnEntry where
  signal : String
  handler : String
  file : String
  line : Nat
  defined_in : String
deriving Repr, DecidableEq

/-- `SignalFlowResult` dataclass. -/
structure SignalFlowResult where
  signal_name : String
  signal_id : Option String
  found : Bool
  definition : Option FlowStep
  emissions : List FlowStep
  connections : List ConnEntry
  handlers : List FlowStep
deriving Repr, DecidableEq

/-- String rendering of the Python value
`metadata.get("defined_in_scene", "code")` (the stored value is the Python
bool, shown as `True`/`False`). -/
def definedInRepr : Option Bool → String
  | some true => "True"
  | some false => "False"
  | none => "code"

/-- The definition step built for one matched signal. -/
def sigDefStep (g : Graph) (m : FoundNode) : FlowStep :=
  { node_id := m.id
    node_name := m.name
    node_type := "SIGNAL"
    file_path := shortPath m.file
    line_number := m.line
    action := "DEFINE"
    context := ""
    code_snippet := nodeSnippetD g m.id }

/-- The emission steps of one matched signal (incoming `EMITS` edges). -/
def sigEmissions (g : Graph) (sid : String) : List FlowStep :=
  (g.preds sid).filterMap fun source =>
    if edgeRelOpt g source sid == some "EMITS" then
      some { node_id := source
             node_name := nodeNameD g source
             node_type := nodeTypeD g source
             file_path := shortPath (nodeFileD g source)
             line_number := nodeLineD g source
             action := "EMIT"
             context := edgeCtxD g source sid
             code_snippet := "" }
    else none

/-- The outgoing `CONNECTS_TO` targets of a matched signal that are
`SIGNAL_CONNECTION` nodes. -/
def sigConnTargets (g : Graph) (sid : String) : List String :=
  (g.succs sid).filter fun target =>
    edgeRelOpt g sid target == some "CONNECTS_TO"
      && (match g.nodeData target with | some d => some d.type | none => none)
          == some "SIGNAL_CONNECTION"

/-- The connection record built from one `SIGNAL_CONNECTION` target of the
signal node. -/
def sigConnEntry (g : Graph) (signal_name target : String) : ConnEntry :=
  let md := nodeMetaD g target
  { signal := signal_name
    handler := md.handler.getD (match g.nodeData target with | some d => d.name | none => "")
    file := shortPath (nodeFileD g target)
    line := nodeLineD g target
    defined_in := definedInRepr md.defined_in_scene }

/-- The handler steps found through one `SIGNAL_CONNECTION` node: its
outgoing neighbours of type `FUNCTION`. -/
def sigHandlers (g : Graph) (target : String) : List FlowStep :=
  (g.succs target).filterMap fun h =>
    if (match g.nodeData h with | some d => some d.type | none => none) == some "FUNCTION" then
      some { node_id := h
             node_name := nodeNameD g h
             node_type := "FUNCTION"
             file_path := shortPath (nodeFileD g h)
             line_number := nodeLineD g h
             action := "HANDLE"
             context := ""
             code_snippet := "" }
    else none

/-- Accumulator of the per-match loop of `trace_signal_flow`. -/
structure SigAcc where
  signal_id : Option String
  definition : Option FlowStep
  emissions : List FlowStep
  connections : List ConnEntry
  handlers : List FlowStep
deriving Repr, DecidableEq

/-- One iteration of the per-match loop of `trace_signal_flow`. -/
def sigVisitMatch (g : Graph) (signal_name : String) (acc : SigAcc) (m : FoundNode) : SigAcc :=
  let targets := sigConnTargets g m.id
  { signal_id := some m.id
    definition := some (sigDefStep g m)
    emissions := acc.emissions ++ sigEmissions g m.id
    connections := acc.connections ++ targets.map (sigConnEntry g signal_name)
    handlers := acc.handlers ++ targets.flatMap (sigHandlers g) }

/-- The metadata scan of `trace_signal_flow` over all `SIGNAL_CONNECTION`
nodes naming this signal.  Note that the dedup key pairs the raw
`file_path` of the scanned node with the already-shortened `file` of the
stored entries. -/
def sigScanStep (signal_name : String) (conns : List ConnEntry)
    (p : String × Option NodeData) : List ConnEntry :=
  let md := match p.2 with | some d => d.metadata | none => emptyMetadata
  if (match p.2 with | some d => some d.type | none => none) == some "SIGNAL_CONNECTION"
      && md.signal == some signal_name then
    let conn_key := (md.handler.getD "", match p.2 with | some d => d.file_path | none => "")
    if (conns.map (fun c => (c.handler, c.file))).contains conn_key then conns
    else conns ++
      [{ signal := signal_name
         handler := md.handler.getD ""
         file := shortPath (match p.2 with | some d => d.file_path | none => "")
         line := match p.2 with | some d => d.line_number | none => 0
         defined_in := if metaTruthyScene md then "scene" else "code" }]
  else conns

/-- `FlowTracer.trace_signal_flow`. -/
def trace_signal_flow (g : Graph) (signal_name : String) : SignalFlowResult :=
  let base : SignalFlowResult :=
    { signal_name := signal_name
      signal_id := none
      found := false
      definition := none
      emissions := []
      connections := []
      handlers := [] }
  let ms := find_node_by_name g signal_name (some "SIGNAL") none false
  if ms.isEmpty then base
  else
    let acc := ms.foldl (sigVisitMatch g signal_name)
      { signal_id := none, definition := none, emissions := [], connections := [], handlers := [] }
    let conns := g.nodes.foldl (sigScanStep signal_name) acc.connections
    { base with
        found := true
        signal_id := acc.signal_id
        definition := acc.definition
        emissions := acc.emissions
        connections := conns
        handlers := acc.handlers }

/-! ## Serialization (`graph_builder.py`, `export_json` / `import_json`) -/

/-- The flat node-list/edge-list representation written by `export_json`
(minus the constant format/project-root header): each node as its id plus
all attributes, each edge as source id, target id and all attributes. -/
structure ExportData where
  nodes : List (String × Option NodeData)
  edges : List (String × String × EdgeData)
deriving Repr, DecidableEq

/-- `graph.add_node(id, **attrs)`: insert, or update the attributes of an
existing node (an empty attribute set updates nothing). -/
def Graph.addNodeRaw (g : Graph) (id : String) (attrs : Option NodeData) : Graph :=
  if g.hasNode id then
    { g with nodes := g.nodes.map fun p =>
        if p.1 == id then (p.1, match attrs with | some d => some d | none => p.2) else p }
  else { g with nodes := g.nodes ++ [(id, attrs)] }

/-- `graph.add_edge(s, t, **attrs)`: auto-create missing endpoints with empty
attributes, then insert or overwrite the edge record of the ordered pair. -/
def Graph.addEdgeRaw (g : Graph) (s t : String) (d : EdgeData) : Graph :=
  let g1 := if g.hasNode s then g else { g with nodes := g.nodes ++ [(s, none)] }
  let g2 := if g1.hasNode t then g1 else { g1 with nodes := g1.nodes ++ [(t, none)] }
  if g2.edges.any (fun e => e.1 == s && e.2.1 == t) then
    { g2 with edges := g2.edges.map fun e => if e.1 == s && e.2.1 == t then (s, t, d) else e }
  else { g2 with edges := g2.edges ++ [(s, t, d)] }

/-- `GraphBuilder.export_json`: dump every node with its attributes and every
edge with its attributes. -/
def export_json (g : Graph) : ExportData := { nodes := g.nodes, edges := g.edges }

/-- `GraphBuilder.import_json`: clear the graph, re-add every node, then
re-add every edge. -/
def import_json (data : ExportData) : Graph :=
  let g0 := data.nodes.foldl (fun g p => g.addNodeRaw p.1 p.2) { nodes := [], edges := [] }
  data.edges.foldl (fun g e => g.addEdgeRaw e.1 e.2.1 e.2.2) g0

/-! ## Specification-side definitions

These follow the wording of the specification/claims (not the code); the
theorems below compare them with the embedded code. -/

/-- Whether any traversed edge or any node of the path has a confidence in
the given set (the aggregation vocabulary of spec §4.3). -/
def pathTouchesConf (g : Graph) (p : List String) (levels : List String) : Bool :=
  p.any (fun u => levels.contains (nodeConfD g u))
    || (adjPairs p).any (fun uv => levels.contains (edgeConfD g uv.1 uv.2))

/-- The aggregate confidence exactly as the claim states it: low if any
traversed edge or node on any returned path has low/ambiguous confidence,
else medium if any has medium, else high. -/
def specAggConfidenceClaimed (g : Graph) (ps : List (List String)) : String :=
  if ps.any (fun p => pathTouchesConf g p ["low", "ambiguous"]) then "low"
  else if ps.any (fun p => pathTouchesConf g p ["medium"]) then "medium"
  else "high"

/-- The number of traversed edges of a path whose confidence is low or
ambiguous. -/
def badEdgeCount (g : Graph) (p : List String) : Nat :=
  (adjPairs p).countP (fun uv => isBadConf (edgeConfD g uv.1 uv.2))

/-- The aggregate confidence the code actually computes, stated by counting:
low if some returned path traverses at least two low/ambiguous-confidence
edges, else medium if some returned path traverses at least one, else high
(node confidences and medium edge confidences play no part). -/
def specAggConfidenceAmended (g : Graph) (ps : List (List String)) : String :=
  if ps.any (fun p => 2 ≤ badEdgeCount g p) then "low"
  else if ps.any (fun p => 1 ≤ badEdgeCount g p) then "medium"
  else "high"

/-- The risk thresholds exactly as the claim states them: critical if
total_affected>50 or files>10, high if total_affected>20 or files>5, medium
if total_affected>5, else low. -/
def riskLevelSpec (total_affected files : Nat) : String :=
  if 50 < total_affected || 10 < files then "critical"
  else if 20 < total_affected || 5 < files then "high"
  else if 5 < total_affected then "medium"
  else "low"

/-- The cycle-type rule as the claim states it, over the edges walked along
the cycle: `call` if any edge is Calls, else `signal` if any is
Emits/ConnectsTo, else `resource` if any is References, else `data`. -/
def specCycleTypeOf (g : Graph) (cyc : List String) : String :=
  if (cycPairs cyc).any (fun uv => edgeRelD g uv.1 uv.2 "UNKNOWN" == "CALLS") then "call"
  else if (cycPairs cyc).any (fun uv => edgeRelD g uv.1 uv.2 "UNKNOWN" == "EMITS")
      || (cycPairs cyc).any (fun uv => edgeRelD g uv.1 uv.2 "UNKNOWN" == "CONNECTS_TO") then
    "signal"
  else if (cycPairs cyc).any (fun uv => edgeRelD g uv.1 uv.2 "UNKNOWN" == "REFERENCES") then
    "resource"
  else "data"

/-- The severity rule as the claim states it: high for length at most 2,
medium for length at most 4, else low. -/
def specSeverityOf (n : Nat) : String :=
  if n ≤ 2 then "high" else if n ≤ 4 then "medium" else "low"

/-! ## Concrete inputs used by scenarios, witnesses and counterexamples -/

/-- A node record with the given type, name, file and line. -/
def mkND (tp nm fp : String) (ln : Nat) (conf : String) : NodeData :=
  { type := tp
    name := nm
    file_path := fp
    line_number := ln
    language := "gdscript"
    code_snippet := ""
    metadata := emptyMetadata
    confidence := conf }

/-- A `CALLS` edge record with the given confidence. -/
def callsE (conf : String) : EdgeData :=
  { relationship := "CALLS", context := "", metadata := emptyMetadata, confidence := conf }

/-- The scenario graph `A --Calls--> B --Calls--> C`. -/
def gABC : Graph :=
  { nodes :=
      [("A", some (mkND "FUNCTION" "A" "a.gd" 1 "high")),
       ("B", some (mkND "FUNCTION" "B" "b.gd" 2 "high")),
       ("C", some (mkND "FUNCTION" "C" "c.gd" 3 "high"))]
    edges := [("A", "B", callsE "high"), ("B", "C", callsE "high")] }

/-- The scenario graph `X -> Y -> Z -> X`, all edges `CALLS`. -/
def gXYZ : Graph :=
  { nodes :=
      [("X", some (mkND "FUNCTION" "X" "x.gd" 1 "high")),
       ("Y", some (mkND "FUNCTION" "Y" "y.gd" 2 "high")),
       ("Z", some (mkND "FUNCTION" "Z" "z.gd" 3 "high"))]
    edges :=
      [("X", "Y", callsE "high"), ("Y", "Z", callsE "high"), ("Z", "X", callsE "high")] }

/-- Two nodes joined by a single low-confidence `CALLS` edge. -/
def gLowEdge : Graph :=
  { nodes :=
      [("s", some (mkND "FUNCTION" "s" "s.gd" 1 "high")),
       ("t", some (mkND "FUNCTION" "t" "t.gd" 2 "high"))]
    edges := [("s", "t", callsE "low")] }

/-- A lone private-named function with no edges at all. -/
def gPrivateFn : Graph :=
  { nodes := [("f1", some (mkND "FUNCTION" "_helper" "x.gd" 4 "high"))]
    edges := [] }

/-- A function `foo` with zero incoming edges that calls a lifecycle
callback. -/
def gCallerOfReady : Graph :=
  { nodes :=
      [("r1", some (mkND "FUNCTION" "_ready" "x.gd" 1 "high")),
       ("foo1", some (mkND "FUNCTION" "foo" "x.gd" 9 "high"))]
    edges := [("foo1", "r1", callsE "high")] }

/-- Two functions `alpha` and `beta` joined by a high-confidence call. -/
def gExecHigh : Graph :=
  { nodes :=
      [("fa", some (mkND "FUNCTION" "alpha" "a.gd" 1 "high")),
       ("fb", some (mkND "FUNCTION" "beta" "b.gd" 2 "high"))]
    edges := [("fa", "fb", callsE "high")] }

/-- The same two functions joined by a low-confidence call. -/
def gExecLow : Graph :=
  { nodes :=
      [("fa", some (mkND "FUNCTION" "alpha" "a.gd" 1 "high")),
       ("fb", some (mkND "FUNCTION" "beta" "b.gd" 2 "high"))]
    edges := [("fa", "fb", callsE "low")] }

/-- A signal with one scene-file `SIGNAL_CONNECTION` both linked by a
`CONNECTS_TO` edge and naming the signal in its metadata.  The connection
node's file path starts with a stripped prefix, so its shortened form
differs from the raw one. -/
def gSig : Graph :=
  { nodes :=
      [("s1", some (mkND "SIGNAL" "sig" "/s.gd" 1 "high")),
       ("c1", some { mkND "SIGNAL_CONNECTION" "conn1" "/a.tscn" 5 "high" with
                       metadata := { defined_in_scene := none
                                     signal := some "sig"
                                     handler := some "h" } })]
    edges :=
      [("s1", "c1",
        { relationship := "CONNECTS_TO", context := "", metadata := emptyMetadata,
          confidence := "high" })] }

/-- Two variables of the same name in different files, one written and one
read. -/
def gVar : Graph :=
  { nodes :=
      [("v1", some (mkND "VARIABLE" "hp" "p1.gd" 3 "high")),
       ("v2", some (mkND "VARIABLE" "hp" "p2.gd" 4 "high")),
       ("w1", some (mkND "FUNCTION" "writer" "p1.gd" 10 "high")),
       ("r1", some (mkND "FUNCTION" "reader" "p2.gd" 11 "high"))]
    edges :=
      [("w1", "v1",
        { relationship := "WRITES", context := "hp = 1", metadata := emptyMetadata,
          confidence := "high" }),
       ("r1", "v2",
        { relationship := "READS", context := "use(hp)", metadata := emptyMetadata,
          confidence := "high" })] }

/-- A lone public function with no edges at all. -/
def gLoneFn : Graph :=
  { nodes := [("foo1", some (mkND "FUNCTION" "foo" "x.gd" 9 "high"))]
    edges := [] }

/-- The discovery step of the BFS in the chosen direction: `v` was reached
from `u` through an edge whose relationship is the recorded tag. -/
def relConnects (g : Graph) (dir : Direction) (u v : String) (r : Option String) : Prop :=
  ((dir = Direction.forward ∨ dir = Direction.both) ∧ v ∈ g.succs u ∧ r = edgeRelOpt g u v)
  ∨ ((dir = Direction.backward ∨ dir = Direction.both) ∧ v ∈ g.preds u ∧ r = edgeRelOpt g v u)

/-- A recorded dependency is linked to the BFS tree: it was discovered from
the start node at depth 1 or from a node recorded one level shallower,
through an edge carrying the recorded relationship. -/
def depLink (g : Graph) (dir : Direction) (start : String) (deps : List DepEntry)
    (id : String) (depth : Nat) (r : Option String) : Prop :=
  ∃ u, ((u = start ∧ depth = 1) ∨ ∃ pe ∈ deps, pe.id = u ∧ pe.depth + 1 = depth)
    ∧ relConnects g dir u id r

/-- The record soundness of a finished dependency list. -/
def depsGood (g : Graph) (dir : Direction) (start : String) (maxDepth : Nat)
    (deps : List DepEntry) : Prop :=
  (deps.map (fun e => e.id)).Nodup
  ∧ ∀ e ∈ deps, e.id ≠ start ∧ 1 ≤ e.depth ∧ e.depth ≤ maxDepth
      ∧ depLink g dir start deps e.id e.depth e.edge_type

/-- The loop invariant of `findDepsLoop`: either the worklist still holds
only the initial entry, or the start node has been expanded and every
recorded entry and queued entry is sound. -/
def depsInv (g : Graph) (dir : Direction) (start : String) (maxDepth : Nat)
    (visited : List String) (queue : List QEntry) (deps : List DepEntry) : Prop :=
  (visited = [] ∧ deps = []
    ∧ queue = [{ id := start, depth := 0, rel := none, from_id := none }])
  ∨ (start ∈ visited
     ∧ (deps.map (fun e => e.id)).Nodup
     ∧ (∀ e ∈ deps, e.id ≠ start ∧ 1 ≤ e.depth ∧ e.depth ≤ maxDepth ∧ e.id ∈ visited
         ∧ depLink g dir start deps e.id e.depth e.edge_type)
     ∧ (∀ q ∈ queue, q.id ≠ start ∧ depLink g dir start deps q.id q.depth q.rel))

/-! ## Theorems -/

/-- Every `networkx` graph satisfies `riskOf = riskLevelSpec` by definition:
the code's branch structure is literally the claimed thresholds. -/
theorem riskOf_eq_spec (t f : Nat) : riskOf t f = riskLevelSpec t f := rfl

/-- C3: on `A --Calls--> B --Calls--> C`, `analyze_impact(C, depth=2)`
returns direct impact exactly `B`, indirect impact exactly `A` at depth 2,
two affected nodes and risk level `low`; and in general the risk level is
the claimed fixed-threshold function of the total affected count and the
number of affected files. -/
theorem claim3_analyze_impact :
    ((analyze_impact gABC "C" 2).direct_impact.map (fun e => e.id) = ["B"]
      ∧ (analyze_impact gABC "C" 2).indirect_impact.map (fun e => (e.id, e.depth)) = [("A", 2)]
      ∧ (analyze_impact gABC "C" 2).total_affected = 2
      ∧ (analyze_impact gABC "C" 2).risk_level = "low")
    ∧ ∀ (g : Graph) (node_id : String) (depth : Nat),
        (analyze_impact g node_id depth).risk_level =
          riskLevelSpec (analyze_impact g node_id depth).total_affected
            (analyze_impact g node_id depth).affected_files.length := by
  refine ⟨⟨by decide, by decide, by decide, by decide⟩, ?_⟩
  intro g node_id depth
  unfold analyze_impact
  by_cases h : g.hasNode node_id = true
  · simp only [h, if_true]
    exact riskOf_eq_spec _ _
  · simp only [Bool.not_eq_true] at h
    simp only [h, Bool.false_eq_true, if_false]
    rfl

/-- C3 witness: the general risk clause instantiated on the scenario graph. -/
theorem claim3_analyze_impact_witness :
    (analyze_impact gABC "C" 2).risk_level =
      riskLevelSpec (analyze_impact gABC "C" 2).total_affected
        (analyze_impact gABC "C" 2).affected_files.length :=
  claim3_analyze_impact.2 gABC "C" 2

/-- C5: querying an id absent from the graph returns the normal empty /
`found=false` result value for `find_path`, `find_dependencies`,
`find_usages`, `find_callees` and `analyze_impact` (all embedded operations
are total functions, the faithful image of the Python code raising no
exception on this path); and `find_usages` on an existing node with zero
incoming edges returns `total_count=0` and an empty usage list. -/
theorem claim5_missing_id_degrades :
    (∀ (g : Graph) (id other : String) (dir : Direction) (d md mp : Nat),
      g.hasNode id = false →
        (find_path g id other md mp).found = false
        ∧ (find_path g other id md mp).found = false
        ∧ (find_dependencies g id dir d).dependencies = []
        ∧ (find_dependencies g id dir d).total_count = 0
        ∧ (find_usages g id).usages = []
        ∧ (find_usages g id).total_count = 0
        ∧ find_callees g id = []
        ∧ (analyze_impact g id d).direct_impact = []
        ∧ (analyze_impact g id d).indirect_impact = []
        ∧ (analyze_impact g id d).total_affected = 0)
    ∧ ∀ (g : Graph) (id : String),
        g.hasNode id = true → (∀ e ∈ g.edges, e.2.1 ≠ id) →
          (find_usages g id).total_count = 0 ∧ (find_usages g id).usages = [] := by
  constructor
  · intro g id other dir d md mp h
    refine ⟨?_, ?_, ?_, ?_, ?_, ?_, ?_, ?_, ?_, ?_⟩ <;>
      simp [find_path, find_dependencies, find_usages, find_callees, analyze_impact, h]
  · intro g id h hin
    have hnil : g.inEdges id = [] := by
      refine List.filter_eq_nil_iff.mpr ?_
      intro e he
      simpa using hin e he
    constructor <;> simp [find_usages, h, hnil]

/-- C5 witness: a missing id `"Z"` on the scenario graph, and the
zero-incoming node `"A"`. -/
theorem claim5_missing_id_degrades_witness :
    (find_path gABC "Z" "A" 5 7).found = false ∧ (find_usages gABC "A").total_count = 0 :=
  ⟨(claim5_missing_id_degrades.1 gABC "Z" "A" Direction.forward 3 5 7 (by decide)).1,
   (claim5_missing_id_degrades.2 gABC "A" (by decide) (by decide)).1⟩

/-- `hasNode` only looks at the node list. -/
theorem hasNode_mk (ns : List (String × Option NodeData))
    (es : List (String × String × EdgeData)) (id : String) :
    Graph.hasNode ⟨ns, es⟩ id = ns.any (fun p => p.1 == id) := rfl

/-- Re-adding a list of fresh, distinct nodes appends them unchanged. -/
theorem addNodeRaw_foldl (l : List (String × Option NodeData)) (acc : Graph)
    (hfresh : ∀ p ∈ l, acc.hasNode p.1 = false) (hnd : (l.map Prod.fst).Nodup) :
    l.foldl (fun g p => g.addNodeRaw p.1 p.2) acc = { acc with nodes := acc.nodes ++ l } := by
  induction l generalizing acc with
  | nil => simp
  | cons p rest ih =>
    simp only [List.foldl_cons]
    have hp : acc.hasNode p.1 = false := hfresh p (List.mem_cons_self p rest)
    have hstep : acc.addNodeRaw p.1 p.2 = { acc with nodes := acc.nodes ++ [p] } := by
      simp [Graph.addNodeRaw, hp]
    rw [hstep]
    have hnd' : (rest.map Prod.fst).Nodup := (List.nodup_cons.mp hnd).2
    have hnotin : p.1 ∉ rest.map Prod.fst := (List.nodup_cons.mp hnd).1
    have hfresh' : ∀ q ∈ rest, Graph.hasNode { acc with nodes := acc.nodes ++ [p] } q.1 = false := by
      intro q hq
      have h1 : acc.hasNode q.1 = false := hfresh q (List.mem_cons_of_mem p hq)
      have h2 : (p.1 == q.1) = false := by
        simp only [beq_eq_false_iff_ne, ne_eq]
        intro hcontra
        exact hnotin (hcontra ▸ List.mem_map_of_mem Prod.fst hq)
      simp only [Graph.hasNode] at h1 ⊢
      simp [List.any_append, h1, h2]
    rw [ih _ hfresh' hnd']
    simp

/-- Re-adding a list of distinct edges between existing endpoints, none of
which collides with a stored pair, appends them unchanged. -/
theorem addEdgeRaw_foldl (l : List (String × String × EdgeData)) (acc : Graph)
    (hend : ∀ e ∈ l, acc.hasNode e.1 = true ∧ acc.hasNode e.2.1 = true)
    (hfresh : ∀ e ∈ l, ∀ e' ∈ acc.edges, ¬(e'.1 = e.1 ∧ e'.2.1 = e.2.1))
    (hnd : (l.map (fun e => (e.1, e.2.1))).Nodup) :
    l.foldl (fun g e => g.addEdgeRaw e.1 e.2.1 e.2.2) acc = { acc with edges := acc.edges ++ l } := by
  induction l generalizing acc with
  | nil => simp
  | cons e rest ih =>
    simp only [List.foldl_cons]
    have hs : acc.hasNode e.1 = true := (hend e (List.mem_cons_self e rest)).1
    have ht : acc.hasNode e.2.1 = true := (hend e (List.mem_cons_self e rest)).2
    have hnomatch : (acc.edges.any (fun e' => e'.1 == e.1 && e'.2.1 == e.2.1)) = false := by
      rw [List.any_eq_false]
      intro e' he'
      have := hfresh e (List.mem_cons_self e rest) e' he'
      simp only [Bool.and_eq_true, beq_iff_eq, not_and]
      intro h1
      simp only [not_and] at this
      exact fun h2 => this h1 h2
    have hstep : acc.addEdgeRaw e.1 e.2.1 e.2.2 = { acc with edges := acc.edges ++ [e] } := by
      simp [Graph.addEdgeRaw, hs, ht, hnomatch]
    rw [hstep]
    have hnd' : (rest.map (fun e => (e.1, e.2.1))).Nodup := (List.nodup_cons.mp hnd).2
    have hnotin : (e.1, e.2.1) ∉ rest.map (fun e => (e.1, e.2.1)) := (List.nodup_cons.mp hnd).1
    have hend' : ∀ q ∈ rest, Graph.hasNode { acc with edges := acc.edges ++ [e] } q.1 = true
        ∧ Graph.hasNode { acc with edges := acc.edges ++ [e] } q.2.1 = true := by
      intro q hq
      exact hend q (List.mem_cons_of_mem e hq)
    have hfresh' : ∀ q ∈ rest, ∀ e' ∈ acc.edges ++ [e], ¬(e'.1 = q.1 ∧ e'.2.1 = q.2.1) := by
      intro q hq e' he'
      rcases List.mem_append.mp he' with hold | hnew
      · exact hfresh q (List.mem_cons_of_mem e hq) e' hold
      · have : e' = e := by simpa using hnew
        subst this
        rintro ⟨h1, h2⟩
        apply hnotin
        have : (e'.1, e'.2.1) = (q.1, q.2.1) := by rw [h1, h2]
        rw [this]
        exact List.mem_map_of_mem (fun e => (e.1, e.2.1)) hq
    rw [ih _ hend' hfresh' hnd']
    simp

/-- C9: exporting a graph and importing the result reconstructs the graph
exactly — the same node set with all attributes and the same edge set with
all attributes — for every graph satisfying the invariants `networkx`
guarantees (unique node ids, one record per edge pair, endpoints present). -/
theorem claim9_export_import_roundtrip (g : Graph) (hwf : g.WF) :
    import_json (export_json g) = g := by
  obtain ⟨hn, he, hend⟩ := hwf
  unfold import_json export_json
  have h0 : (g.nodes.foldl (fun gr p => gr.addNodeRaw p.1 p.2)
      ({ nodes := [], edges := [] } : Graph)) = { nodes := g.nodes, edges := [] } := by
    rw [addNodeRaw_foldl g.nodes { nodes := [], edges := [] } (fun p _ => rfl) hn]
    rfl
  rw [h0]
  have h1 : (g.edges.foldl (fun gr e => gr.addEdgeRaw e.1 e.2.1 e.2.2)
      ({ nodes := g.nodes, edges := [] } : Graph)) = { nodes := g.nodes, edges := g.edges } := by
    have hend' : ∀ e ∈ g.edges,
        Graph.hasNode { nodes := g.nodes, edges := [] } e.1 = true
        ∧ Graph.hasNode { nodes := g.nodes, edges := [] } e.2.1 = true := by
      intro e hme
      exact hend e hme
    rw [addEdgeRaw_foldl g.edges { nodes := g.nodes, edges := [] } hend' (by simp) he]
    rfl
  rw [h1]

/-- C9 witness: the round trip on the concrete scenario graph. -/
theorem claim9_export_import_roundtrip_witness : import_json (export_json gABC) = gABC :=
  claim9_export_import_roundtrip gABC (by decide)

/-- `adjPairs` of a singleton list is empty. -/
theorem adjPairs_singleton {α : Type} (a : α) : adjPairs [a] = ([] : List (α × α)) := rfl

/-- `lastD` of a list ending in `v` is `v`. -/
theorem lastD_concat {α : Type} (d : α) (l : List α) (v : α) : lastD d (l ++ [v]) = v := by
  induction l generalizing d with
  | nil => rfl
  | cons b rest ih => exact ih b

/-- `cycPairsAux` walks the adjacent pairs and then closes back to the first
node. -/
theorem cycPairsAux_eq {α : Type} (first cur : α) (l : List α) :
    cycPairsAux first cur l = adjPairs (cur :: l) ++ [(lastD cur l, first)] := by
  induction l generalizing cur with
  | nil => rfl
  | cons b rest ih =>
    show (cur, b) :: cycPairsAux first b rest = _
    rw [ih b]
    rfl

/-- Appending one node extends the adjacent pairs by one edge from the old
last node. -/
theorem adjPairs_append_last {α : Type} (a : α) (l : List α) (v : α) :
    adjPairs ((a :: l) ++ [v]) = adjPairs (a :: l) ++ [(lastD a l, v)] := by
  induction l generalizing a with
  | nil => rfl
  | cons b rest ih =>
    show (a, b) :: adjPairs ((b :: rest) ++ [v]) = _
    rw [ih b]
    rfl

/-- A successor pair is backed by at least one edge record of the graph. -/
theorem edgeData_isSome_of_mem (g : Graph) (u v : String)
    (h : ∃ e ∈ g.edges, e.1 = u ∧ e.2.1 = v) : (g.edgeData? u v).isSome = true := by
  obtain ⟨e, hme, h1, h2⟩ := h
  unfold Graph.edgeData?
  have hfind : (g.edges.find? (fun e' => e'.1 == u && e'.2.1 == v)).isSome = true := by
    rw [List.find?_isSome]
    exact ⟨e, hme, by simp [h1, h2]⟩
  obtain ⟨e', he'⟩ := Option.isSome_iff_exists.mp hfind
  simp [he']

/-- Successor membership produces the underlying edge record. -/
theorem succs_mem_edge (g : Graph) (u v : String) (h : v ∈ g.succs u) :
    ∃ e ∈ g.edges, e.1 = u ∧ e.2.1 = v := by
  simp only [Graph.succs, Graph.outEdges, List.mem_map, List.mem_filter] at h
  obtain ⟨e, ⟨hme, hsrc⟩, htgt⟩ := h
  exact ⟨e, hme, by simpa using hsrc, htgt⟩

/-- Every node list emitted by the rooted cycle search closes into edges of
the graph: the adjacent pairs, wrapped around, are all successor pairs. -/
theorem cycPathsAux_sound (g : Graph) (root : String) (allowed : List String) :
    ∀ (fuel : Nat) (u : String) (rest : List String),
      (∀ ab ∈ adjPairs (root :: rest), ab.2 ∈ g.succs ab.1) →
      lastD root rest = u →
      ∀ cyc ∈ cycPathsAux g root allowed fuel u (root :: rest),
        ∀ ab ∈ cycPairs cyc, ab.2 ∈ g.succs ab.1 := by
  intro fuel
  induction fuel with
  | zero =>
    intro u rest _ _ cyc hcyc
    simp [cycPathsAux] at hcyc
  | succ f ih =>
    intro u rest hadj hlast cyc hcyc
    simp only [cycPathsAux, List.mem_flatMap] at hcyc
    obtain ⟨v, hv, hcyc⟩ := hcyc
    by_cases hvr : (v == root) = true
    · rw [if_pos hvr] at hcyc
      simp only [List.mem_singleton] at hcyc
      subst hcyc
      intro ab hab
      simp only [cycPairs, cycPairsAux_eq] at hab
      rcases List.mem_append.mp hab with h | h
      · exact hadj ab h
      · simp only [List.mem_singleton] at h
        subst h
        rw [hlast]
        have hveq : v = root := by simpa using hvr
        exact hveq ▸ hv
    · rw [if_neg hvr] at hcyc
      by_cases hblocked : (!(allowed.contains v) || (root :: rest).contains v) = true
      · rw [if_pos hblocked] at hcyc
        simp at hcyc
      · rw [if_neg hblocked] at hcyc
        have hadj' : ∀ ab ∈ adjPairs (root :: (rest ++ [v])), ab.2 ∈ g.succs ab.1 := by
          intro ab hab
          rw [show root :: (rest ++ [v]) = (root :: rest) ++ [v] from rfl,
            adjPairs_append_last] at hab
          rcases List.mem_append.mp hab with h | h
          · exact hadj ab h
          · simp only [List.mem_singleton] at h
            subst h
            show v ∈ g.succs (lastD root rest)
            rw [hlast]
            exact hv
        exact fun ab hab => ih v (rest ++ [v]) hadj' (lastD_concat root rest v) cyc hcyc ab hab

/-- Every cycle listed by the cycle enumeration closes into successor pairs
of the searched graph. -/
theorem simpleCyclesFrom_sound (g : Graph) :
    ∀ (l : List String) (cyc : List String), cyc ∈ simpleCyclesFrom g l →
      ∀ ab ∈ cycPairs cyc, ab.2 ∈ g.succs ab.1 := by
  intro l
  induction l with
  | nil =>
    intro cyc hcyc
    exact absurd (show cyc ∈ ([] : List (List String)) from hcyc) (List.not_mem_nil cyc)
  | cons v rest ih =>
    intro cyc hcyc ab hab
    simp only [simpleCyclesFrom] at hcyc
    rcases List.mem_append.mp hcyc with h | h
    · refine cycPathsAux_sound g v (v :: rest) g.nodes.length v [] ?_ rfl cyc h ab hab
      intro ab' hab'
      rw [adjPairs_singleton] at hab'
      simp at hab'
    · exact ih cyc h ab hab

/-- In a filtered subgraph, every successor pair comes from the pair list. -/
theorem filteredSubgraph_succs (ps : List (String × String)) (u v : String)
    (h : v ∈ (filteredSubgraph ps).succs u) : (u, v) ∈ ps := by
  simp only [filteredSubgraph, Graph.succs, Graph.outEdges, List.mem_map, List.mem_filter,
    List.mem_map] at h
  obtain ⟨e, ⟨⟨p, hp, hpe⟩, hsrc⟩, htgt⟩ := h
  subst hpe
  simp only [beq_iff_eq] at hsrc
  have hpv : p = (u, v) := by
    cases p
    simp_all
  exact hpv ▸ hp

/-- Membership in a mapped list of `String` keys equals an `any` over the
originals. -/
theorem contains_map_any {α : Type} (f : α → String) (l : List α) (a : String) :
    (l.map f).contains a = l.any (fun x => f x == a) := by
  induction l with
  | nil => rfl
  | cons x xs ih =>
    simp only [List.map_cons, List.contains_cons, List.any_cons, ih]
    have hsw : (a == f x) = (f x == a) := by
      by_cases h : a = f x
      · subst h; rfl
      · rw [beq_eq_false_iff_ne.mpr h, beq_eq_false_iff_ne.mpr (Ne.symm h)]
    rw [hsw]

/-- The code's set-membership classification of a cycle's type equals the
claimed any-edge-on-the-cycle rule. -/
theorem classifyCycleType_eq_spec (g : Graph) (cyc : List String) :
    classifyCycleType (cycleRels g cyc) = specCycleTypeOf g cyc := by
  unfold classifyCycleType specCycleTypeOf cycleRels
  rw [contains_map_any, contains_map_any, contains_map_any, contains_map_any]

/-- Every cycle object reported by `detect_circular_dependencies` is built by
`mkCycle` from an enumerated cycle of length at least 2 whose wrapped pairs
are edges of the original graph. -/
theorem detect_cycles_decomp (g : Graph) (ets : Option (List String)) (mc : Nat)
    (c : CircularDependency) (hc : c ∈ (detect_circular_dependencies g ets mc).cycles) :
    ∃ cyc, c = mkCycle g cyc ∧ 2 ≤ cyc.length
      ∧ ∀ ab ∈ cycPairs cyc, (g.edgeData? ab.1 ab.2).isSome = true := by
  rcases ets with _ | ets'
  · simp only [detect_circular_dependencies, List.mem_map, List.mem_filter] at hc
    obtain ⟨cyc, ⟨htake, hlen⟩, hmk⟩ := hc
    refine ⟨cyc, hmk.symm, by simpa using hlen, ?_⟩
    intro ab hab
    exact edgeData_isSome_of_mem g ab.1 ab.2 (succs_mem_edge g ab.1 ab.2
      (simpleCyclesFrom_sound g _ cyc (List.take_subset _ _ htake) ab hab))
  · by_cases hemp : ets'.isEmpty = true
    · simp only [detect_circular_dependencies, hemp, if_true, List.mem_map,
        List.mem_filter] at hc
      obtain ⟨cyc, ⟨htake, hlen⟩, hmk⟩ := hc
      refine ⟨cyc, hmk.symm, by simpa using hlen, ?_⟩
      intro ab hab
      exact edgeData_isSome_of_mem g ab.1 ab.2 (succs_mem_edge g ab.1 ab.2
        (simpleCyclesFrom_sound g _ cyc (List.take_subset _ _ htake) ab hab))
    · simp only [detect_circular_dependencies, hemp, if_false, List.mem_map,
        List.mem_filter] at hc
      obtain ⟨cyc, ⟨htake, hlen⟩, hmk⟩ := hc
      refine ⟨cyc, hmk.symm, by simpa using hlen, ?_⟩
      intro ab hab
      have hsub := simpleCyclesFrom_sound _ _ cyc (List.take_subset _ _ htake) ab hab
      have hpair := filteredSubgraph_succs _ ab.1 ab.2 hsub
      simp only [List.mem_map, List.mem_filter] at hpair
      obtain ⟨e, ⟨hme, _⟩, hpe⟩ := hpair
      refine edgeData_isSome_of_mem g ab.1 ab.2 ⟨e, hme, ?_, ?_⟩
      · exact congrArg Prod.fst hpe
      · have := congrArg Prod.snd hpe
        exact this

/-- C4: every reported circular dependency has length at least 2, its
`cycle_type` is `call` if any edge on the cycle is Calls, else `signal` if
any is Emits/ConnectsTo, else `resource` if any is References, else `data`,
its `severity` follows the claimed length thresholds (high for length at
most 2, medium for at most 4, else low), and the cycle's wrapped-around
pairs are actual edges of the graph; on the three-node `CALLS` cycle
`X->Y->Z->X` exactly one cycle is reported, of type `call` and severity
`medium`. -/
theorem claim4_detect_circular_dependencies :
    (∀ (g : Graph) (ets : Option (List String)) (mc : Nat),
      ∀ c ∈ (detect_circular_dependencies g ets mc).cycles,
        2 ≤ c.cycle_length
        ∧ c.cycle_length = c.cycle.length
        ∧ c.cycle_type = specCycleTypeOf g (c.cycle.map (fun n => n.id))
        ∧ c.severity = specSeverityOf c.cycle_length
        ∧ ∀ ab ∈ cycPairs (c.cycle.map (fun n => n.id)), (g.edgeData? ab.1 ab.2).isSome = true)
    ∧ ((detect_circular_dependencies gXYZ none 50).total_cycles = 1
       ∧ (detect_circular_dependencies gXYZ none 50).cycles.map
           (fun c => (c.cycle_type, c.severity, c.cycle_length)) = [("call", "medium", 3)]) := by
  constructor
  · intro g ets mc c hc
    obtain ⟨cyc, hmk, hlen, hclose⟩ := detect_cycles_decomp g ets mc c hc
    subst hmk
    have hids : (mkCycle g cyc).cycle.map (fun n => n.id) = cyc := by
      show (cyc.map (mkNodeInfo g)).map (fun n => n.id) = cyc
      rw [List.map_map]
      have hcmp : ((fun n : NodeInfo => n.id) ∘ mkNodeInfo g) = id := funext fun x => rfl
      rw [hcmp, List.map_id]
    refine ⟨hlen, by simp [mkCycle], ?_, rfl, ?_⟩
    · rw [hids]
      exact classifyCycleType_eq_spec g cyc
    · rw [hids]
      exact hclose
  · exact ⟨by decide, by decide⟩

/-- C4 witness: the per-cycle clause instantiated on the scenario graph's
single reported cycle. -/
theorem claim4_detect_circular_dependencies_witness :
    ∀ c ∈ (detect_circular_dependencies gXYZ none 50).cycles,
      2 ≤ c.cycle_length ∧ c.cycle_length = c.cycle.length
      ∧ c.cycle_type = specCycleTypeOf gXYZ (c.cycle.map (fun n => n.id))
      ∧ c.severity = specSeverityOf c.cycle_length
      ∧ ∀ ab ∈ cycPairs (c.cycle.map (fun n => n.id)),
          (gXYZ.edgeData? ab.1 ab.2).isSome = true :=
  claim4_detect_circular_dependencies.1 gXYZ none 50

/-- The stable ascending sort is sorted. -/
theorem sortByLen_pairwise {α : Type} (ps : List (List α)) :
    (sortByLen ps).Pairwise lenLe :=
  List.sorted_insertionSort lenLe ps

/-- The stable ascending sort is a permutation of its input. -/
theorem sortByLen_perm {α : Type} (ps : List (List α)) : (sortByLen ps).Perm ps :=
  List.perm_insertionSort lenLe ps

/-- `pathSteps` produces one step per path node. -/
theorem pathSteps_length (g : Graph) : ∀ p : List String, (pathSteps g p).length = p.length := by
  intro p
  induction p with
  | nil => rfl
  | cons u rest ih =>
    cases rest with
    | nil => rfl
    | cons v rest' =>
      show (pathSteps g (v :: rest')).length + 1 = _
      rw [ih]
      rfl

/-- A left min-fold stays below its seed. -/
theorem foldl_min_le_init (x : Nat) (xs : List Nat) : xs.foldl Nat.min x ≤ x := by
  induction xs generalizing x with
  | nil => exact Nat.le_refl x
  | cons a xs' ih => exact Nat.le_trans (ih (Nat.min x a)) (Nat.min_le_left x a)

/-- A left min-fold is below every listed element. -/
theorem foldl_min_le (x y : Nat) (xs : List Nat) (h : y ∈ x :: xs) : xs.foldl Nat.min x ≤ y := by
  induction xs generalizing x with
  | nil =>
    have hxy : y = x := by simpa using h
    rw [hxy]
    exact Nat.le_refl x
  | cons a xs' ih =>
    show xs'.foldl Nat.min (Nat.min x a) ≤ y
    rcases List.mem_cons.mp h with hx | hax
    · rw [hx]
      exact Nat.le_trans (foldl_min_le_init (Nat.min x a) xs') (Nat.min_le_left x a)
    · rcases List.mem_cons.mp hax with ha | hxs
      · rw [ha]
        exact Nat.le_trans (foldl_min_le_init (Nat.min x a) xs') (Nat.min_le_right x a)
      · exact ih (Nat.min x a) (List.mem_cons_of_mem _ hxs)

/-- A left min-fold lands on its seed or one of the listed elements. -/
theorem foldl_min_mem (x : Nat) (xs : List Nat) : xs.foldl Nat.min x ∈ x :: xs := by
  induction xs generalizing x with
  | nil => simp
  | cons a xs' ih =>
    show xs'.foldl Nat.min (Nat.min x a) ∈ x :: a :: xs'
    have h := ih (Nat.min x a)
    rcases List.mem_cons.mp h with hh | ht
    · rw [hh]
      by_cases hxa : x ≤ a
      · have hmin : Nat.min x a = x := Nat.min_eq_left hxa
        rw [hmin]
        exact List.mem_cons_self _ _
      · have hmin : Nat.min x a = a := Nat.min_eq_right (by omega)
        rw [hmin]
        exact List.mem_cons_of_mem _ (List.mem_cons_self _ _)
    · exact List.mem_cons_of_mem _ (List.mem_cons_of_mem _ ht)

/-- `minHops` is a lower bound on the hop count of every enumerated path. -/
theorem minHops_le (ps : List (List String)) (p : List String) (hp : p ∈ ps) :
    minHops ps ≤ p.length - 1 := by
  cases ps with
  | nil => simp at hp
  | cons q qs =>
    show (qs.map (fun r => r.length - 1)).foldl Nat.min (q.length - 1) ≤ p.length - 1
    apply foldl_min_le
    rcases List.mem_cons.mp hp with hq | hqs
    · subst hq; simp
    · exact List.mem_cons_of_mem _ (List.mem_map_of_mem _ hqs)

/-- `minHops` is attained by some enumerated path. -/
theorem minHops_mem (ps : List (List String)) (hne : ps ≠ []) :
    ∃ p ∈ ps, minHops ps = p.length - 1 := by
  cases ps with
  | nil => exact absurd rfl hne
  | cons q qs =>
    have h : minHops (q :: qs) ∈ (q.length - 1) :: qs.map (fun r => r.length - 1) :=
      foldl_min_mem _ _
    rcases List.mem_cons.mp h with hh | ht
    · exact ⟨q, List.mem_cons_self q qs, hh⟩
    · obtain ⟨p, hp, hpe⟩ := List.mem_map.mp ht
      exact ⟨p, List.mem_cons_of_mem _ hp, hpe.symm⟩

/-- Degrading twice always lands on `"low"`. -/
theorem degrade_degrade (c : String) : degradeConf (degradeConf c) = "low" := by
  unfold degradeConf
  by_cases h : (c == "high") = true
  · rw [if_pos h]
    decide
  · rw [if_neg h]
    decide

/-- The degradation fold of `find_path` only depends on how many traversed
edges are low/ambiguous: zero keeps the accumulator, one degrades once, two
or more degrade twice. -/
theorem foldDegrade_eq_count (g : Graph) (l : List (String × String)) :
    ∀ acc : String,
      l.foldl (fun a uv => if isBadConf (edgeConfD g uv.1 uv.2) then degradeConf a else a) acc
        = (if l.countP (fun uv => isBadConf (edgeConfD g uv.1 uv.2)) = 0 then acc
           else if l.countP (fun uv => isBadConf (edgeConfD g uv.1 uv.2)) = 1 then degradeConf acc
           else degradeConf (degradeConf acc)) := by
  induction l with
  | nil => intro acc; rfl
  | cons uv l' ih =>
    intro acc
    by_cases hb : isBadConf (edgeConfD g uv.1 uv.2) = true
    · have hcnt : (uv :: l').countP (fun uv => isBadConf (edgeConfD g uv.1 uv.2))
          = l'.countP (fun uv => isBadConf (edgeConfD g uv.1 uv.2)) + 1 := by
        simp [List.countP_cons, hb]
      show l'.foldl _ (if isBadConf (edgeConfD g uv.1 uv.2) then degradeConf acc else acc) = _
      rw [if_pos hb, ih (degradeConf acc), hcnt]
      generalize l'.countP (fun uv => isBadConf (edgeConfD g uv.1 uv.2)) = n
      rcases n with _ | n
      · simp
      · rcases n with _ | k'
        · simp [degrade_degrade]
        · rw [if_neg (show ¬(k' + 1 + 1 = 0) by omega),
            if_neg (show ¬(k' + 1 + 1 = 1) by omega),
            if_neg (show ¬(k' + 1 + 1 + 1 = 0) by omega),
            if_neg (show ¬(k' + 1 + 1 + 1 = 1) by omega),
            degrade_degrade, degrade_degrade]
    · have hb' : isBadConf (edgeConfD g uv.1 uv.2) = false := by
        simpa using hb
      have hcnt : (uv :: l').countP (fun uv => isBadConf (edgeConfD g uv.1 uv.2))
          = l'.countP (fun uv => isBadConf (edgeConfD g uv.1 uv.2)) := by
        simp [List.countP_cons, hb']
      show l'.foldl _ (if isBadConf (edgeConfD g uv.1 uv.2) then degradeConf acc else acc) = _
      rw [if_neg (by simp [hb']), ih acc, hcnt]

/-- The per-path confidence of `find_path` counted out: high for zero
low/ambiguous edges, medium for exactly one, low for two or more. -/
theorem pathConfidence_eq_count (g : Graph) (p : List String) :
    pathConfidence g p =
      (if badEdgeCount g p = 0 then "high"
       else if badEdgeCount g p = 1 then "medium" else "low") := by
  unfold pathConfidence badEdgeCount
  rw [foldDegrade_eq_count]
  split
  · rfl
  · split
    · decide
    · decide

/-- The per-path confidence is `"low"` exactly on two or more bad edges. -/
theorem pathConf_low_iff (g : Graph) (p : List String) :
    (pathConfidence g p == "low") = decide (2 ≤ badEdgeCount g p) := by
  rw [pathConfidence_eq_count]
  rcases hcnt : badEdgeCount g p with _ | k
  · simp
  · rcases k with _ | k'
    · simp
    · have h1 : ¬(k' + 1 + 1 = 0) := by omega
      have h2 : ¬(k' + 1 + 1 = 1) := by omega
      have h3 : 2 ≤ k' + 1 + 1 := by omega
      rw [if_neg h1, if_neg h2]
      simp [h3]

/-- Below two bad edges, the per-path confidence is `"medium"` exactly on one
bad edge. -/
theorem pathConf_medium_iff (g : Graph) (p : List String) (h : badEdgeCount g p ≤ 1) :
    (pathConfidence g p == "medium") = decide (1 ≤ badEdgeCount g p) := by
  rw [pathConfidence_eq_count]
  rcases hcnt : badEdgeCount g p with _ | k
  · simp
  · rcases k with _ | k'
    · simp
    · rw [hcnt] at h
      omega

/-- The confidence aggregation of `find_path` over the returned paths equals
the amended claim's counting rule. -/
theorem overall_eq_specAmended (g : Graph) (chosen : List (List String)) :
    overallConfOf (chosen.map (pathConfidence g)) = specAggConfidenceAmended g chosen := by
  unfold overallConfOf specAggConfidenceAmended
  rw [contains_map_any, contains_map_any]
  have hfl : (fun p => pathConfidence g p == "low") =
      (fun p => decide (2 ≤ badEdgeCount g p)) := funext (pathConf_low_iff g)
  rw [hfl]
  by_cases h2 : (chosen.any fun p => decide (2 ≤ badEdgeCount g p)) = true
  · rw [h2]
    rfl
  · have h2f : (chosen.any fun p => decide (2 ≤ badEdgeCount g p)) = false := by
      simpa using h2
    rw [h2f]
    have hmed : (chosen.any fun p => pathConfidence g p == "medium")
        = (chosen.any fun p => decide (1 ≤ badEdgeCount g p)) := by
      rw [Bool.eq_iff_iff]
      simp only [List.any_eq_true]
      constructor
      · rintro ⟨p, hp, hconf⟩
        have hle : badEdgeCount g p ≤ 1 := by
          have := List.any_eq_false.mp h2f p hp
          simp at this
          omega
        rw [pathConf_medium_iff g p hle] at hconf
        exact ⟨p, hp, hconf⟩
      · rintro ⟨p, hp, hcnt⟩
        have hle : badEdgeCount g p ≤ 1 := by
          have := List.any_eq_false.mp h2f p hp
          simp at this
          omega
        refine ⟨p, hp, ?_⟩
        rw [pathConf_medium_iff g p hle]
        exact hcnt
    rw [hmed]

/-- C1 counterexample: on the two-node graph whose single `CALLS` edge has
confidence `low`, `find_path` succeeds but reports aggregate confidence
`medium`, while the claim's rule (any low/ambiguous edge or node on a
returned path forces `low`) demands `low`. -/
theorem claim1_counterexample :
    (gLowEdge.hasNode "s" = true ∧ gLowEdge.hasNode "t" = true
      ∧ allSimplePaths gLowEdge "s" "t" 10 ≠ [])
    ∧ (find_path gLowEdge "s" "t" 10 10).found = true
    ∧ (find_path gLowEdge "s" "t" 10 10).confidence = "medium"
    ∧ specAggConfidenceClaimed gLowEdge (selectedPaths gLowEdge "s" "t" 10 10) = "low"
    ∧ (find_path gLowEdge "s" "t" 10 10).confidence ≠
        specAggConfidenceClaimed gLowEdge (selectedPaths gLowEdge "s" "t" 10 10) := by
  exact ⟨⟨by decide, by decide, by decide⟩, by decide, by decide, by decide, by decide⟩

/-- C1 (amended): when both ids are present and at least one simple directed
path within the depth bound exists, `find_path` reports `found=true`, at most
`max_paths` paths sorted ascending by length drawn from the enumeration,
`total_paths` equal to the pre-truncation path count, `shortest_length`
equal to the minimum hop count, and an aggregate confidence computed from
edge confidences only: a returned path with two or more low/ambiguous
edges forces `low`, else one such edge on some returned path gives
`medium`, else `high` (node confidences and `medium` edge confidences are
ignored, unlike the original claim). -/
theorem claim1_find_path_amended (g : Graph) (s t : String) (md mp : Nat)
    (hs : g.hasNode s = true) (ht : g.hasNode t = true)
    (hne : allSimplePaths g s t md ≠ []) :
    (find_path g s t md mp).found = true
    ∧ (find_path g s t md mp).total_paths = (allSimplePaths g s t md).length
    ∧ (find_path g s t md mp).paths.length = min mp (allSimplePaths g s t md).length
    ∧ (find_path g s t md mp).paths.Pairwise (fun a b => a.length ≤ b.length)
    ∧ (∀ q ∈ (find_path g s t md mp).paths, ∃ p ∈ allSimplePaths g s t md, q = pathSteps g p)
    ∧ (∃ p ∈ allSimplePaths g s t md,
        (find_path g s t md mp).shortest_length = p.length - 1)
    ∧ (∀ p ∈ allSimplePaths g s t md,
        (find_path g s t md mp).shortest_length ≤ p.length - 1)
    ∧ (find_path g s t md mp).confidence =
        specAggConfidenceAmended g (selectedPaths g s t md mp) := by
  have hemp : (allSimplePaths g s t md).isEmpty = false := by
    rcases h : (allSimplePaths g s t md).isEmpty with _ | _
    · rfl
    · exact absurd (List.isEmpty_iff.mp h) hne
  have hfp : find_path g s t md mp =
      { source := nodeNameD g s
        target := nodeNameD g t
        found := true
        paths := (selectedPaths g s t md mp).map (pathSteps g)
        total_paths := (allSimplePaths g s t md).length
        shortest_length := minHops (allSimplePaths g s t md)
        confidence := overallConfOf ((selectedPaths g s t md mp).map (pathConfidence g)) } := by
    unfold find_path
    rw [hs, ht]
    simp only [Bool.and_self, if_true, hemp, Bool.false_eq_true, if_false]
  rw [hfp]
  refine ⟨rfl, rfl, ?_, ?_, ?_, ?_, ?_, ?_⟩
  · show ((selectedPaths g s t md mp).map (pathSteps g)).length = _
    rw [List.length_map]
    unfold selectedPaths
    rw [List.length_take, (sortByLen_perm (allSimplePaths g s t md)).length_eq]
  · show ((selectedPaths g s t md mp).map (pathSteps g)).Pairwise _
    have hsorted : (selectedPaths g s t md mp).Pairwise lenLe :=
      (sortByLen_pairwise (allSimplePaths g s t md)).sublist (List.take_sublist _ _)
    refine hsorted.map (pathSteps g) ?_
    intro a b hab
    rw [pathSteps_length g a, pathSteps_length g b]
    exact hab
  · intro q hq
    obtain ⟨p, hp, hpe⟩ := List.mem_map.mp hq
    refine ⟨p, ?_, hpe.symm⟩
    have : p ∈ sortByLen (allSimplePaths g s t md) := List.take_subset _ _ hp
    exact (sortByLen_perm (allSimplePaths g s t md)).mem_iff.mp this
  · exact minHops_mem _ hne
  · intro p hp
    exact minHops_le _ p hp
  · exact overall_eq_specAmended g (selectedPaths g s t md mp)

/-- C1 witness: the amended statement instantiated on the two-hop scenario
graph. -/
theorem claim1_find_path_amended_witness :
    (find_path gABC "A" "C" 10 10).found = true
    ∧ (find_path gABC "A" "C" 10 10).total_paths = (allSimplePaths gABC "A" "C" 10).length :=
  ⟨(claim1_find_path_amended gABC "A" "C" 10 10 (by decide) (by decide) (by decide)).1,
   (claim1_find_path_amended gABC "A" "C" 10 10 (by decide) (by decide) (by decide)).2.1⟩

/-- Under the one-record-per-pair invariant, the edge lookup of a stored
record returns that record. -/
theorem find_pair_unique (l : List (String × String × EdgeData))
    (hnd : (l.map (fun e => (e.1, e.2.1))).Nodup) (e : String × String × EdgeData)
    (he : e ∈ l) : l.find? (fun e' => e'.1 == e.1 && e'.2.1 == e.2.1) = some e := by
  induction l with
  | nil => simp at he
  | cons a rest ih =>
    rcases List.mem_cons.mp he with hae | hrest
    · subst hae
      have : (e.1 == e.1 && e.2.1 == e.2.1) = true := by simp
      simp [List.find?_cons, this]
    · have hnotin : (a.1, a.2.1) ∉ rest.map (fun e => (e.1, e.2.1)) := (List.nodup_cons.mp hnd).1
      have hpna : (a.1 == e.1 && a.2.1 == e.2.1) = false := by
        rw [Bool.and_eq_false_iff]
        by_cases h1 : a.1 = e.1
        · right
          rw [beq_eq_false_iff_ne]
          intro h2
          apply hnotin
          have : (a.1, a.2.1) = (e.1, e.2.1) := by rw [h1, h2]
          rw [this]
          exact List.mem_map_of_mem _ hrest
        · left
          exact beq_eq_false_iff_ne.mpr h1
      rw [List.find?_cons, hpna]
      exact ih (List.nodup_cons.mp hnd).2 hrest

/-- Every path emitted by the bounded simple-path DFS walks actual successor
pairs. -/
theorem simplePathsAux_sound (g : Graph) (t : String) :
    ∀ (fuel : Nat) (u first : String) (rest : List String),
      (∀ ab ∈ adjPairs (first :: rest), ab.2 ∈ g.succs ab.1) →
      lastD first rest = u →
      ∀ p ∈ simplePathsAux g t fuel u (first :: rest),
        ∀ ab ∈ adjPairs p, ab.2 ∈ g.succs ab.1 := by
  intro fuel
  induction fuel with
  | zero =>
    intro u first rest _ _ p hp
    simp [simplePathsAux] at hp
  | succ f ih =>
    intro u first rest hadj hlast p hp
    simp only [simplePathsAux, List.mem_flatMap] at hp
    obtain ⟨v, hv, hp⟩ := hp
    by_cases hvt : (v == t) = true
    · rw [if_pos hvt] at hp
      simp only [List.mem_singleton] at hp
      subst hp
      intro ab hab
      rw [show (first :: rest) ++ [t] = first :: (rest ++ [t]) from rfl] at hab
      rw [show first :: (rest ++ [t]) = (first :: rest) ++ [t] from rfl,
        adjPairs_append_last] at hab
      rcases List.mem_append.mp hab with h | h
      · exact hadj ab h
      · simp only [List.mem_singleton] at h
        subst h
        show t ∈ g.succs (lastD first rest)
        rw [hlast]
        have hveq : v = t := by simpa using hvt
        exact hveq ▸ hv
    · rw [if_neg hvt] at hp
      by_cases hvis : ((first :: rest).contains v) = true
      · rw [if_pos hvis] at hp
        simp at hp
      · rw [if_neg hvis] at hp
        have hadj' : ∀ ab ∈ adjPairs (first :: (rest ++ [v])), ab.2 ∈ g.succs ab.1 := by
          intro ab hab
          rw [show first :: (rest ++ [v]) = (first :: rest) ++ [v] from rfl,
            adjPairs_append_last] at hab
          rcases List.mem_append.mp hab with h | h
          · exact hadj ab h
          · simp only [List.mem_singleton] at h
            subst h
            show v ∈ g.succs (lastD first rest)
            rw [hlast]
            exact hv
        exact fun ab hab => ih v first (rest ++ [v]) hadj' (lastD_concat first rest v) p hp ab hab

/-- Every enumerated simple path walks actual successor pairs. -/
theorem allSimplePaths_sound (g : Graph) (s t : String) (cutoff : Nat) :
    ∀ p ∈ allSimplePaths g s t cutoff, ∀ ab ∈ adjPairs p, ab.2 ∈ g.succs ab.1 := by
  intro p hp
  unfold allSimplePaths at hp
  by_cases hst : (s == t) = true
  · rw [if_pos hst] at hp
    simp at hp
  · rw [if_neg hst] at hp
    refine simplePathsAux_sound g t cutoff s s [] ?_ rfl p hp
    intro ab hab
    rw [adjPairs_singleton] at hab
    simp at hab

/-- `execSteps` produces one step per path node. -/
theorem execSteps_length (g : Graph) : ∀ p : List String, (execSteps g p).length = p.length := by
  intro p
  induction p with
  | nil => rfl
  | cons u rest ih =>
    cases rest with
    | nil => rfl
    | cons v rest' =>
      show (execSteps g (v :: rest')).length + 1 = _
      rw [ih]
      rfl

/-- The node ids along an execution-path step list are the path itself. -/
theorem execSteps_ids (g : Graph) : ∀ p : List String,
    (execSteps g p).map (fun st => st.node_id) = p := by
  intro p
  induction p with
  | nil => rfl
  | cons u rest ih =>
    cases rest with
    | nil => rfl
    | cons v rest' =>
      show u :: (execSteps g (v :: rest')).map (fun st => st.node_id) = _
      rw [ih]

/-- The union `all_paths` of `trace_execution_path` contains exactly the
simple call paths over every combination of matching start and end
function nodes. -/
theorem execPathEnum_mem (g : Graph) (sf ef : String) (md : Nat) (p : List String) :
    p ∈ execPathEnum g sf ef md ↔
      ∃ sn ∈ find_node_by_name g sf (some "FUNCTION") none false,
      ∃ en ∈ find_node_by_name g ef (some "FUNCTION") none false,
        (callGraphOf g).hasNode sn.id = true
        ∧ (callGraphOf g).hasNode en.id = true
        ∧ p ∈ allSimplePaths (callGraphOf g) sn.id en.id md := by
  unfold execPathEnum
  simp only [List.mem_flatMap]
  constructor
  · rintro ⟨sn, hsn, en, hen, hmem⟩
    by_cases hc : ((callGraphOf g).hasNode sn.id && (callGraphOf g).hasNode en.id) = true
    · rw [if_pos hc] at hmem
      exact ⟨sn, hsn, en, hen, (Bool.and_eq_true _ _).mp hc |>.1,
        (Bool.and_eq_true _ _).mp hc |>.2, hmem⟩
    · rw [if_neg hc] at hmem
      simp at hmem
  · rintro ⟨sn, hsn, en, hen, h1, h2, hmem⟩
    refine ⟨sn, hsn, en, hen, ?_⟩
    rw [if_pos (by rw [h1, h2]; rfl)]
    exact hmem

/-- Either `trace_execution_path` returns the not-found base result, or its
fields are the sorted/truncated enumeration data. -/
theorem trace_exec_cases (g : Graph) (sf ef : String) (md : Nat) :
    trace_execution_path g sf ef md =
      { start_function := sf, end_function := ef, found := false, paths := [],
        total_paths := 0, shortest_length := 0 }
    ∨ (execPathEnum g sf ef md ≠ []
       ∧ trace_execution_path g sf ef md =
          { start_function := sf, end_function := ef, found := true
            paths := ((sortByLen (execPathEnum g sf ef md)).take 5).map (execSteps g)
            total_paths := (execPathEnum g sf ef md).length
            shortest_length := minHops (execPathEnum g sf ef md) }) := by
  unfold trace_execution_path
  by_cases h1 : ((find_node_by_name g sf (some "FUNCTION") none false).isEmpty
      || (find_node_by_name g ef (some "FUNCTION") none false).isEmpty) = true
  · rw [if_pos h1]
    left
    rfl
  · rw [if_neg h1]
    by_cases h2 : (execPathEnum g sf ef md).isEmpty = true
    · rw [if_pos h2]
      left
      rfl
    · rw [if_neg h2]
      right
      refine ⟨?_, rfl⟩
      intro hc
      exact h2 (by rw [hc]; rfl)

/-- C7 counterexample: two graphs that differ only in the confidence of the
single traversed call edge produce byte-identical `trace_execution_path`
results (the result type has no confidence field at all), although the
`find_path` aggregation rule distinguishes them. -/
theorem claim7_counterexample :
    trace_execution_path gExecLow "alpha" "beta" 10
        = trace_execution_path gExecHigh "alpha" "beta" 10
    ∧ (trace_execution_path gExecLow "alpha" "beta" 10).found = true
    ∧ (find_path gExecLow "fa" "fb" 10 10).confidence = "medium"
    ∧ (find_path gExecHigh "fa" "fb" 10 10).confidence = "high" := by
  exact ⟨by decide, by decide, by decide, by decide⟩

/-- C7 (amended): `trace_execution_path` traverses only `Calls` edges, its
enumeration is the union of the simple call paths over every combination of
matching start/end `FUNCTION` nodes, and the result reports the paths sorted
ascending by length (truncated to 5), the pre-truncation `total_paths`, and
the minimum hop count as `shortest_length`; the result carries no
confidence field (the original claim's confidence clause is dropped). -/
theorem claim7_trace_execution_path_amended :
    (∀ (g : Graph) (sf ef : String) (md : Nat),
      (g.edges.map (fun e => (e.1, e.2.1))).Nodup →
        ∀ q ∈ (trace_execution_path g sf ef md).paths,
          ∀ ab ∈ adjPairs (q.map (fun st => st.node_id)),
            ∃ ed, g.edgeData? ab.1 ab.2 = some ed ∧ ed.relationship = "CALLS")
    ∧ (∀ (g : Graph) (sf ef : String) (md : Nat) (p : List String),
        p ∈ execPathEnum g sf ef md ↔
          ∃ sn ∈ find_node_by_name g sf (some "FUNCTION") none false,
          ∃ en ∈ find_node_by_name g ef (some "FUNCTION") none false,
            (callGraphOf g).hasNode sn.id = true
            ∧ (callGraphOf g).hasNode en.id = true
            ∧ p ∈ allSimplePaths (callGraphOf g) sn.id en.id md)
    ∧ (∀ (g : Graph) (sf ef : String) (md : Nat),
        (trace_execution_path g sf ef md).paths.Pairwise (fun a b => a.length ≤ b.length)
        ∧ (trace_execution_path g sf ef md).paths.length ≤ 5
        ∧ ((trace_execution_path g sf ef md).found = true →
            (trace_execution_path g sf ef md).total_paths = (execPathEnum g sf ef md).length
            ∧ (∃ p ∈ execPathEnum g sf ef md,
                (trace_execution_path g sf ef md).shortest_length = p.length - 1)
            ∧ ∀ p ∈ execPathEnum g sf ef md,
                (trace_execution_path g sf ef md).shortest_length ≤ p.length - 1)) := by
  refine ⟨?_, execPathEnum_mem, ?_⟩
  · intro g sf ef md hnd q hq ab hab
    rcases trace_exec_cases g sf ef md with hbase | ⟨_, hres⟩
    · rw [hbase] at hq
      simp at hq
    · rw [hres] at hq
      simp only [List.mem_map] at hq
      obtain ⟨p, hp, hpe⟩ := hq
      have hpall : p ∈ execPathEnum g sf ef md :=
        (sortByLen_perm _).mem_iff.mp (List.take_subset _ _ hp)
      obtain ⟨sn, _, en, _, _, _, hpsimple⟩ := (execPathEnum_mem g sf ef md p).mp hpall
      rw [← hpe, execSteps_ids] at hab
      have hsucc : ab.2 ∈ (callGraphOf g).succs ab.1 :=
        allSimplePaths_sound (callGraphOf g) sn.id en.id md p hpsimple ab hab
      have hpair := filteredSubgraph_succs _ ab.1 ab.2 hsucc
      simp only [List.mem_map, List.mem_filter] at hpair
      obtain ⟨e, ⟨hme, hrel⟩, hpe'⟩ := hpair
      have h1 : e.1 = ab.1 := congrArg Prod.fst hpe'
      have h2 : e.2.1 = ab.2 := congrArg Prod.snd hpe'
      refine ⟨e.2.2, ?_, by simpa using hrel⟩
      have := find_pair_unique g.edges hnd e hme
      unfold Graph.edgeData?
      rw [← h1, ← h2, this]
  · intro g sf ef md
    rcases trace_exec_cases g sf ef md with hbase | ⟨hne, hres⟩
    · rw [hbase]
      refine ⟨List.Pairwise.nil, by simp, ?_⟩
      intro hfound
      simp at hfound
    · rw [hres]
      refine ⟨?_, ?_, fun _ => ⟨rfl, minHops_mem _ hne, fun p hp => minHops_le _ p hp⟩⟩
      · have hsorted : ((sortByLen (execPathEnum g sf ef md)).take 5).Pairwise lenLe :=
          (sortByLen_pairwise _).sublist (List.take_sublist _ _)
        refine hsorted.map (execSteps g) ?_
        intro a b hab'
        show (execSteps g a).length ≤ (execSteps g b).length
        rw [execSteps_length g a, execSteps_length g b]
        exact hab'
      · show (((sortByLen (execPathEnum g sf ef md)).take 5).map (execSteps g)).length ≤ 5
        rw [List.length_map, List.length_take]
        exact Nat.min_le_left _ _

/-- C7 witness: the amended statement instantiated on the two-function call
graph. -/
theorem claim7_trace_execution_path_amended_witness :
    ∀ q ∈ (trace_execution_path gExecHigh "alpha" "beta" 10).paths,
      ∀ ab ∈ adjPairs (q.map (fun st => st.node_id)),
        ∃ ed, gExecHigh.edgeData? ab.1 ab.2 = some ed ∧ ed.relationship = "CALLS" :=
  claim7_trace_execution_path_amended.1 gExecHigh "alpha" "beta" 10 (by decide)

/-- C8: on a signal whose scene connection is reached both through the
`CONNECTS_TO` edge and through the metadata scan, `trace_signal_flow`
returns two connection entries with the same `(handler, file)` pair: the
scan's dedup key compares the raw `file_path` (`/a.tscn`) against the stored
shortened path (`a.tscn`) and never matches, so the claimed deduplication
fails on any path the `_short_path` prefix-stripping rewrites. -/
theorem claim8_trace_signal_flow_dup :
    (trace_signal_flow gSig "sig").connections.map (fun c => (c.handler, c.file))
        = [("h", "a.tscn"), ("h", "a.tscn")]
    ∧ ¬ ((trace_signal_flow gSig "sig").connections.map
          (fun c => (c.handler, c.file))).Nodup := by
  exact ⟨by decide, by decide⟩

/-- `getLast?` of a nonempty list computed through `lastD`. -/
theorem getLast?_eq_lastD {α : Type} (a : α) (l : List α) :
    (a :: l).getLast? = some (lastD a l) := by
  induction l generalizing a with
  | nil => rfl
  | cons b r ih =>
    rw [List.getLast?_cons_cons]
    exact ih b

/-- The per-match fold of `trace_variable_flow`: the id and definition track
the last match, the writes and reads accumulate over all matches. -/
theorem varFold_cons (g : Graph) (m : FoundNode) (rest : List FoundNode) (acc : VarAcc) :
    (m :: rest).foldl (varVisitMatch g) acc =
      { variable_id := some (lastD m rest).id
        definition := some (varDefStep g (lastD m rest))
        writes := acc.writes ++ (m :: rest).flatMap (fun m' => varWrites g m'.id)
        reads := acc.reads ++ (m :: rest).flatMap (fun m' => varReads g m'.id) } := by
  induction rest generalizing m acc with
  | nil => simp [varVisitMatch, lastD]
  | cons m2 rest' ih =>
    show (m2 :: rest').foldl (varVisitMatch g) (varVisitMatch g acc m) = _
    rw [ih m2 (varVisitMatch g acc m)]
    simp [varVisitMatch, lastD, List.append_assoc]

/-- C10: when more than one `VARIABLE` node matches, `trace_variable_flow`
aggregates the incoming `WRITES`/`READS` edges of all matches into the
writes and reads lists, while `variable_id` and the single definition step
reflect only the last-processed match, and `total_usages` always equals the
number of writes plus the number of reads. -/
theorem claim10_trace_variable_flow (g : Graph) (nm : String) (sf : Option String)
    (hne : find_node_by_name g nm (some "VARIABLE") sf false ≠ []) :
    (trace_variable_flow g nm sf).found = true
    ∧ (∃ m, (find_node_by_name g nm (some "VARIABLE") sf false).getLast? = some m
        ∧ (trace_variable_flow g nm sf).variable_id = some m.id
        ∧ (trace_variable_flow g nm sf).definition = some (varDefStep g m))
    ∧ (trace_variable_flow g nm sf).writes =
        (find_node_by_name g nm (some "VARIABLE") sf false).flatMap (fun m => varWrites g m.id)
    ∧ (trace_variable_flow g nm sf).reads =
        (find_node_by_name g nm (some "VARIABLE") sf false).flatMap (fun m => varReads g m.id)
    ∧ (trace_variable_flow g nm sf).total_usages =
        (trace_variable_flow g nm sf).writes.length + (trace_variable_flow g nm sf).reads.length := by
  rcases hms : find_node_by_name g nm (some "VARIABLE") sf false with _ | ⟨m, rest⟩
  · exact absurd hms hne
  · have hunf : trace_variable_flow g nm sf =
        { variable_name := nm
          variable_id := some (lastD m rest).id
          found := true
          definition := some (varDefStep g (lastD m rest))
          writes := (m :: rest).flatMap (fun m' => varWrites g m'.id)
          reads := (m :: rest).flatMap (fun m' => varReads g m'.id)
          total_usages := ((m :: rest).flatMap (fun m' => varWrites g m'.id)).length
            + ((m :: rest).flatMap (fun m' => varReads g m'.id)).length } := by
      unfold trace_variable_flow
      rw [hms]
      simp only [List.isEmpty_cons, Bool.false_eq_true, if_false, varFold_cons g m rest]
      simp
    rw [hunf]
    exact ⟨rfl, ⟨lastD m rest, getLast?_eq_lastD m rest, rfl, rfl⟩, rfl, rfl, rfl⟩

/-- C10 witness: two same-named variables, one written and one read. -/
theorem claim10_trace_variable_flow_witness :
    (trace_variable_flow gVar "hp" none).found = true :=
  (claim10_trace_variable_flow gVar "hp" none (by decide)).1

/-- A string list that does not contain an element reports `false`. -/
theorem contains_false_of_not_mem (l : List String) (a : String) (h : a ∉ l) :
    l.contains a = false := by
  induction l with
  | nil => rfl
  | cons b rest ih =>
    rw [List.contains_cons]
    have h1 : (a == b) = false := beq_eq_false_iff_ne.mpr (fun hc => h (hc ▸ List.mem_cons_self b rest))
    rw [h1, ih (fun hc => h (List.mem_cons_of_mem b hc))]
    rfl

/-- A string list reporting `false` does not contain the element. -/
theorem not_mem_of_contains_false (l : List String) (a : String) (h : l.contains a = false) :
    a ∉ l := by
  induction l with
  | nil => simp
  | cons b rest ih =>
    rw [List.contains_cons, Bool.or_eq_false_iff] at h
    intro hc
    rcases List.mem_cons.mp hc with h1 | h1
    · rw [h1] at h
      simp at h
    · exact ih h.2 h1

/-- Decomposition of membership in the forward enqueue list. -/
theorem mem_fwdEnqueue (g : Graph) (u : String) (d : Nat) (visited : List String) (q : QEntry)
    (h : q ∈ fwdEnqueue g u d visited) :
    q.id ∈ g.succs u ∧ visited.contains q.id = false ∧ q.depth = d + 1
    ∧ q.rel = edgeRelOpt g u q.id ∧ q.from_id = some u := by
  unfold fwdEnqueue at h
  simp only [List.mem_filterMap] at h
  obtain ⟨v, hv, hq⟩ := h
  by_cases hc : visited.contains v = true
  · rw [if_pos hc] at hq
    exact absurd hq (by simp)
  · rw [if_neg hc] at hq
    have hqe : ({ id := v, depth := d + 1, rel := edgeRelOpt g u v, from_id := some u } : QEntry)
        = q := Option.some.inj hq
    rw [← hqe]
    exact ⟨hv, by simpa using hc, rfl, rfl, rfl⟩

/-- Decomposition of membership in the backward enqueue list. -/
theorem mem_bwdEnqueue (g : Graph) (u : String) (d : Nat) (visited : List String) (q : QEntry)
    (h : q ∈ bwdEnqueue g u d visited) :
    q.id ∈ g.preds u ∧ visited.contains q.id = false ∧ q.depth = d + 1
    ∧ q.rel = edgeRelOpt g q.id u ∧ q.from_id = some u := by
  unfold bwdEnqueue at h
  simp only [List.mem_filterMap] at h
  obtain ⟨v, hv, hq⟩ := h
  by_cases hc : visited.contains v = true
  · rw [if_pos hc] at hq
    exact absurd hq (by simp)
  · rw [if_neg hc] at hq
    have hqe : ({ id := v, depth := d + 1, rel := edgeRelOpt g v u, from_id := some u } : QEntry)
        = q := Option.some.inj hq
    rw [← hqe]
    exact ⟨hv, by simpa using hc, rfl, rfl, rfl⟩

/-- The boolean forward-direction test in propositional form. -/
theorem dirFwd_of (dir : Direction)
    (h : (dir == Direction.forward || dir == Direction.both) = true) :
    dir = Direction.forward ∨ dir = Direction.both := by
  cases dir
  · exact Or.inl rfl
  · exact absurd h (by decide)
  · exact Or.inr rfl

/-- The boolean backward-direction test in propositional form. -/
theorem dirBwd_of (dir : Direction)
    (h : (dir == Direction.backward || dir == Direction.both) = true) :
    dir = Direction.backward ∨ dir = Direction.both := by
  cases dir
  · exact absurd h (by decide)
  · exact Or.inl rfl
  · exact Or.inr rfl

/-- `depLink` is monotone in the recorded list. -/
theorem depLink_mono (g : Graph) (dir : Direction) (start : String)
    (deps deps' : List DepEntry) (hsub : ∀ e ∈ deps, e ∈ deps')
    (id : String) (depth : Nat) (r : Option String)
    (h : depLink g dir start deps id depth r) : depLink g dir start deps' id depth r := by
  obtain ⟨u, hu, hrc⟩ := h
  refine ⟨u, ?_, hrc⟩
  rcases hu with h1 | ⟨pe, hpe, hh⟩
  · exact Or.inl h1
  · exact Or.inr ⟨pe, hsub pe hpe, hh⟩

/-- The invariant already implies the soundness of the recorded list. -/
theorem depsGood_of_inv (g : Graph) (dir : Direction) (start : String) (maxDepth : Nat)
    (visited : List String) (queue : List QEntry) (deps : List DepEntry)
    (hinv : depsInv g dir start maxDepth visited queue deps) :
    depsGood g dir start maxDepth deps := by
  rcases hinv with ⟨_, hd, _⟩ | ⟨_, hnd, hdeps, _⟩
  · rw [hd]
    exact ⟨List.nodup_nil, by simp⟩
  · exact ⟨hnd, fun e he =>
      ⟨(hdeps e he).1, (hdeps e he).2.1, (hdeps e he).2.2.1, (hdeps e he).2.2.2.2⟩⟩

/-- Membership in a conditionally empty list yields the condition. -/
theorem mem_ite_nil {α : Type} {c : Prop} [Decidable c] {l : List α} {a : α}
    (h : a ∈ (if c then l else [])) : c ∧ a ∈ l := by
  by_cases hc : c
  · rw [if_pos hc] at h
    exact ⟨hc, h⟩
  · rw [if_neg hc] at h
    simp at h

/-- The BFS worklist of `find_dependencies` preserves its invariant and
therefore ends with a sound record list, for any amount of fuel. -/
theorem findDepsLoop_good (g : Graph) (dir : Direction) (start : String) (maxDepth : Nat) :
    ∀ (fuel : Nat) (visited : List String) (queue : List QEntry) (deps : List DepEntry),
      depsInv g dir start maxDepth visited queue deps →
      depsGood g dir start maxDepth
        (findDepsLoop g dir start maxDepth fuel visited queue deps) := by
  intro fuel
  induction fuel with
  | zero =>
    intro visited queue deps hinv
    exact depsGood_of_inv g dir start maxDepth visited queue deps hinv
  | succ f ih =>
    intro visited queue deps hinv
    cases queue with
    | nil => exact depsGood_of_inv g dir start maxDepth visited [] deps hinv
    | cons e queue =>
      simp only [findDepsLoop]
      by_cases hskip : (visited.contains e.id || decide (maxDepth < e.depth)) = true
      · rw [if_pos hskip]
        apply ih
        rcases hinv with ⟨hv, hd, hq⟩ | ⟨hsv, hnd, hdeps, hque⟩
        · injection hq with h1 h2
          rw [hv, h1] at hskip
          simp at hskip
        · exact Or.inr ⟨hsv, hnd, hdeps,
            fun q hq' => hque q (List.mem_cons_of_mem e hq')⟩
      · rw [if_neg hskip]
        have hnv : visited.contains e.id = false ∧ ¬(maxDepth < e.depth) := by
          simp only [Bool.or_eq_true, not_or, Bool.not_eq_true, decide_eq_true_eq] at hskip
          exact hskip
        have hdep_le : e.depth ≤ maxDepth := Nat.le_of_not_lt hnv.2
        have hnotvis : e.id ∉ visited := not_mem_of_contains_false visited e.id hnv.1
        rcases hinv with ⟨hv, hd, hq⟩ | ⟨hsv, hnd, hdeps, hque⟩
        · -- first expansion: e is the initial entry for the start node
          injection hq with h1 h2
          have hid : e.id = start := by rw [h1]
          have hd0 : e.depth = 0 := by rw [h1]
          have hes : (e.id == start) = true := by rw [hid]; exact beq_self_eq_true start
          rw [if_pos hes, hv, hd, h2, hid, hd0]
          apply ih
          refine Or.inr ⟨List.mem_cons_self start [], List.nodup_nil, by simp, ?_⟩
          intro q hq'
          rw [List.nil_append] at hq'
          rcases List.mem_append.mp hq' with hf | hb
          · obtain ⟨hdir, hf'⟩ := mem_ite_nil hf
            obtain ⟨hsuc, hcnt, hdq, hrq, _⟩ := mem_fwdEnqueue g start 0 [start] q hf'
            have hne : q.id ≠ start := by
              intro hcon
              apply not_mem_of_contains_false _ _ hcnt
              rw [hcon]
              exact List.mem_cons_self start []
            exact ⟨hne, start, Or.inl ⟨rfl, by rw [hdq]⟩,
              Or.inl ⟨dirFwd_of dir hdir, hsuc, hrq⟩⟩
          · obtain ⟨hdir, hb'⟩ := mem_ite_nil hb
            obtain ⟨hpre, hcnt, hdq, hrq, _⟩ := mem_bwdEnqueue g start 0 [start] q hb'
            have hne : q.id ≠ start := by
              intro hcon
              apply not_mem_of_contains_false _ _ hcnt
              rw [hcon]
              exact List.mem_cons_self start []
            exact ⟨hne, start, Or.inl ⟨rfl, by rw [hdq]⟩,
              Or.inr ⟨dirBwd_of dir hdir, hpre, hrq⟩⟩
        · -- later expansion: e came from the sound queue
          obtain ⟨hene, helink⟩ := hque e (List.mem_cons_self e queue)
          have hes : (e.id == start) = false := beq_eq_false_iff_ne.mpr hene
          have hesn : ¬((e.id == start) = true) := by
            rw [hes]
            exact Bool.false_ne_true
          rw [if_neg hesn]
          have hdep_ge : 1 ≤ e.depth := by
            obtain ⟨u, hu, _⟩ := helink
            rcases hu with ⟨_, h1⟩ | ⟨pe, _, _, h1⟩
            · omega
            · omega
          have hsub : ∀ d ∈ deps, d ∈ deps ++ [mkDepEntry g e] := fun d hd =>
            List.mem_append_left _ hd
          apply ih
          refine Or.inr ⟨List.mem_cons_of_mem _ hsv, ?_, ?_, ?_⟩
          · rw [List.map_append, List.nodup_append]
            refine ⟨hnd, List.nodup_singleton _, ?_⟩
            intro a ha hb
            simp only [List.map_cons, List.map_nil, List.mem_singleton] at hb
            obtain ⟨d, hdmem, hdid⟩ := List.mem_map.mp ha
            have hba : a = e.id := hb
            apply hnotvis
            rw [← hba, ← hdid]
            exact (hdeps d hdmem).2.2.2.1
          · intro d hd
            rcases List.mem_append.mp hd with hold | hnew
            · obtain ⟨a1, a2, a3, a4, a5⟩ := hdeps d hold
              exact ⟨a1, a2, a3, List.mem_cons_of_mem _ a4,
                depLink_mono g dir start deps _ hsub _ _ _ a5⟩
            · have hde : d = mkDepEntry g e := by simpa using hnew
              rw [hde]
              refine ⟨hene, hdep_ge, hdep_le, List.mem_cons_self _ _, ?_⟩
              exact depLink_mono g dir start deps _ hsub _ _ _ helink
          · intro q hq'
            rcases List.mem_append.mp hq' with hq2 | hb
            · rcases List.mem_append.mp hq2 with hold | hf
              · obtain ⟨b1, b2⟩ := hque q (List.mem_cons_of_mem e hold)
                exact ⟨b1, depLink_mono g dir start deps _ hsub _ _ _ b2⟩
              · obtain ⟨hdir, hf'⟩ := mem_ite_nil hf
                obtain ⟨hsuc, hcnt, hdq, hrq, _⟩ := mem_fwdEnqueue g e.id e.depth
                  (e.id :: visited) q hf'
                have hne : q.id ≠ start := by
                  intro hcon
                  apply not_mem_of_contains_false _ _ hcnt
                  rw [hcon]
                  exact List.mem_cons_of_mem _ hsv
                exact ⟨hne, e.id, Or.inr ⟨mkDepEntry g e,
                  List.mem_append_right _ (List.mem_cons_self _ _), rfl, hdq.symm⟩,
                  Or.inl ⟨dirFwd_of dir hdir, hsuc, hrq⟩⟩
            · obtain ⟨hdir, hb'⟩ := mem_ite_nil hb
              obtain ⟨hpre, hcnt, hdq, hrq, _⟩ := mem_bwdEnqueue g e.id e.depth
                (e.id :: visited) q hb'
              have hne : q.id ≠ start := by
                intro hcon
                apply not_mem_of_contains_false _ _ hcnt
                rw [hcon]
                exact List.mem_cons_of_mem _ hsv
              exact ⟨hne, e.id, Or.inr ⟨mkDepEntry g e,
                List.mem_append_right _ (List.mem_cons_self _ _), rfl, hdq.symm⟩,
                Or.inr ⟨dirBwd_of dir hdir, hpre, hrq⟩⟩

/-- C6: `find_dependencies` records each discovered node other than the
start exactly once (distinct ids), tags every record with a depth between 1
and the bound and with the relationship of an actual edge leading to it
from the start or from a record one level shallower, and sets
`total_count` to the number of recorded dependencies. -/
theorem claim6_find_dependencies_bfs (g : Graph) (node_id : String) (dir : Direction)
    (depth : Nat) (h : g.hasNode node_id = true) :
    (find_dependencies g node_id dir depth).total_count
        = (find_dependencies g node_id dir depth).dependencies.length
    ∧ ((find_dependencies g node_id dir depth).dependencies.map (fun e => e.id)).Nodup
    ∧ ∀ e ∈ (find_dependencies g node_id dir depth).dependencies,
        e.id ≠ node_id ∧ 1 ≤ e.depth ∧ e.depth ≤ depth
        ∧ depLink g dir node_id (find_dependencies g node_id dir depth).dependencies
            e.id e.depth e.edge_type := by
  have hinv0 : depsInv g dir node_id depth []
      [{ id := node_id, depth := 0, rel := none, from_id := none }] [] := by
    unfold depsInv
    left
    exact ⟨rfl, rfl, rfl⟩
  have hgood := findDepsLoop_good g dir node_id depth (2 * g.edges.length + 2) []
    [{ id := node_id, depth := 0, rel := none, from_id := none }] [] hinv0
  unfold find_dependencies
  simp only [h, if_true]
  refine ⟨?_, ?_, ?_⟩
  · trivial
  · exact hgood.1
  · exact hgood.2

/-- C6 witness: backward dependencies of `C` in the two-hop scenario graph. -/
theorem claim6_find_dependencies_bfs_witness :
    ((find_dependencies gABC "C" Direction.backward 2).dependencies.map
      (fun e => e.id)).Nodup :=
  (claim6_find_dependencies_bfs gABC "C" Direction.backward 2 (by decide)).2.1

/-- Membership after pushing a list onto a stack. -/
theorem mem_pushList (xs stack : List String) (a : String) :
    a ∈ pushList xs stack ↔ a ∈ xs ∨ a ∈ stack := by
  induction xs generalizing stack with
  | nil => simp [pushList]
  | cons x xs' ih =>
    show a ∈ pushList xs' (x :: stack) ↔ _
    rw [ih]
    simp only [List.mem_cons]
    tauto

/-- A conditional `some` yields its condition and the value equation. -/
theorem ite_some_eq {α : Type} {c : Prop} [Decidable c] {a b : α}
    (h : (if c then some a else none) = some b) : c ∧ a = b := by
  by_cases hc : c
  · rw [if_pos hc] at h
    exact ⟨hc, Option.some.inj h⟩
  · rw [if_neg hc] at h
    simp at h

/-- A recorded relationship lookup is backed by a stored edge record. -/
theorem edgeRelOpt_some (g : Graph) (s t r : String) (h : edgeRelOpt g s t = some r) :
    ∃ e ∈ g.edges, e.1 = s ∧ e.2.1 = t ∧ e.2.2.relationship = r := by
  unfold edgeRelOpt Graph.edgeData? at h
  cases hfind : g.edges.find? (fun e' => e'.1 == s && e'.2.1 == t) with
  | none =>
    rw [hfind] at h
    simp at h
  | some e =>
    rw [hfind] at h
    have hmem := List.mem_of_find?_eq_some hfind
    have hpred := List.find?_some hfind
    simp only [Bool.and_eq_true, beq_iff_eq] at hpred
    have hr : e.2.2.relationship = r := by
      simpa using h
    exact ⟨e, hmem, hpred.1, hpred.2, hr⟩

/-- A node with no incoming edges and no outgoing
CALLS/REFERENCES/CONNECTS_TO edge can never enter the dead-code
reachability worklist. -/
theorem reachLoop_avoids (g : Graph) (n : String)
    (hnoin : ∀ e ∈ g.edges, e.2.1 ≠ n)
    (hnocrc : ∀ e ∈ g.edges, e.1 = n → crcRels.contains e.2.2.relationship = false) :
    ∀ (fuel : Nat) (reach stack : List String), n ∉ reach → n ∉ stack →
      n ∉ reachLoop g fuel reach stack := by
  intro fuel
  induction fuel with
  | zero =>
    intro reach stack hr _
    exact hr
  | succ f ih =>
    intro reach stack hr hs
    cases stack with
    | nil => exact hr
    | cons cur rest =>
      simp only [reachLoop]
      by_cases hcont : (reach.contains cur) = true
      · rw [if_pos hcont]
        exact ih reach rest hr (fun hc => hs (List.mem_cons_of_mem cur hc))
      · rw [if_neg hcont]
        apply ih
        · intro hc
          rcases List.mem_cons.mp hc with h1 | h1
          · exact hs (h1 ▸ List.mem_cons_self cur rest)
          · exact hr h1
        · intro hc
          rw [mem_pushList] at hc
          rcases hc with hx | hrest
          · rcases List.mem_append.mp hx with hout | hin
            · obtain ⟨e, hme, _, htgt⟩ :=
                succs_mem_edge g cur n (List.mem_filter.mp hout).1
              exact hnoin e hme htgt
            · have hp := (List.mem_filter.mp hin).2
              rw [Bool.and_eq_true] at hp
              have hp1 := hp.1
              cases hrel : edgeRelOpt g n cur with
              | none =>
                rw [hrel] at hp1
                simp at hp1
              | some r =>
                rw [hrel] at hp1
                have hp1' : crcRels.contains r = true := hp1
                obtain ⟨e, hme, hsrc, _, hrelr⟩ := edgeRelOpt_some g n cur r hrel
                have hcrc := hnocrc e hme hsrc
                rw [hrelr] at hcrc
                rw [hcrc] at hp1'
                exact Bool.false_ne_true hp1'
          · exact hs (List.mem_cons_of_mem cur hrest)

/-- Two stored nodes with the same id are the same entry when ids are
unique. -/
theorem key_unique {α : Type} (l : List (String × α)) (hnd : (l.map Prod.fst).Nodup)
    (p q : String × α) (hp : p ∈ l) (hq : q ∈ l) (heq : p.1 = q.1) : p = q := by
  induction l with
  | nil => simp at hp
  | cons a rest ih =>
    have hh : a.1 ∉ rest.map Prod.fst := (List.nodup_cons.mp hnd).1
    rcases List.mem_cons.mp hp with hp1 | hp1
    · rcases List.mem_cons.mp hq with hq1 | hq1
      · rw [hp1, hq1]
      · exfalso
        apply hh
        have ha : a.1 = q.1 := by rw [← hp1]; exact heq
        rw [ha]
        exact List.mem_map_of_mem Prod.fst hq1
    · rcases List.mem_cons.mp hq with hq1 | hq1
      · exfalso
        apply hh
        have ha : a.1 = p.1 := by rw [← hq1]; exact heq.symm
        rw [ha]
        exact List.mem_map_of_mem Prod.fst hp1
      · exact ih (List.nodup_cons.mp hnd).2 hp1 hq1

/-- A function node matching no entry pattern, with a non-lifecycle name, is
not part of the dead-code entry seed. -/
theorem not_entry_of_plain_function (fm : String → String → Bool) (pats : List String)
    (g : Graph) (n : String) (nd : NodeData)
    (hmem : (n, some nd) ∈ g.nodes)
    (hkeys : (g.nodes.map Prod.fst).Nodup)
    (htype : nd.type = "FUNCTION")
    (hpatsn : ∀ pat ∈ pats, fm (shortPath nd.file_path) pat = false)
    (hlife : lifecycleNames.contains nd.name = false) :
    n ∉ entryIds fm pats g := by
  intro hn
  unfold entryIds at hn
  obtain ⟨p, hp, hsome⟩ := List.mem_filterMap.mp hn
  obtain ⟨hcond, hpn⟩ := ite_some_eq hsome
  have hpeq : p = (n, some nd) := key_unique g.nodes hkeys p (n, some nd) hp hmem hpn
  subst hpeq
  have hA : (pats.any fun pat => fm (shortPath nd.file_path) pat) = false := by
    rw [List.any_eq_false]
    intro pat hpat htrue
    rw [hpatsn pat hpat] at htrue
    exact Bool.false_ne_true htrue
  simp only [htype] at hcond
  rw [hA, hlife] at hcond
  simp at hcond
  rcases hcond with h | ⟨h, _⟩
  · exact absurd h (by decide)
  · exact absurd h (by decide)

/-- C2 counterexample: with entry patterns that match nothing, the
underscore-named function `_helper` with zero incoming edges is suppressed
from the report, and the function `foo` with zero incoming edges that calls
a `_ready` lifecycle entry point is pulled into the reachable set and not
reported either — both contradicting the claim as stated. -/
theorem claim2_counterexample :
    ((detect_dead_code (fun _ _ => false) gPrivateFn (some ["zzz"])).unreachable_functions = []
      ∧ gPrivateFn.edges = []
      ∧ (gPrivateFn.nodeData "f1").map (fun d => (d.type, d.name))
          = some ("FUNCTION", "_helper")
      ∧ lifecycleNames.contains "_helper" = false)
    ∧ ((detect_dead_code (fun _ _ => false) gCallerOfReady
          (some ["zzz"])).unreachable_functions = []
      ∧ (∀ e ∈ gCallerOfReady.edges, e.2.1 ≠ "foo1")
      ∧ (gCallerOfReady.nodeData "foo1").map (fun d => (d.type, d.name))
          = some ("FUNCTION", "foo")
      ∧ lifecycleNames.contains "foo" = false) := by
  exact ⟨⟨by decide, by decide, by decide, by decide⟩,
    ⟨by decide, by decide, by decide, by decide⟩⟩

/-- C2 (amended): when the entry-point patterns match no node, every
`FUNCTION` node with zero incoming edges whose name is neither a lifecycle
callback nor underscore-prefixed, and which has no outgoing
Calls/References/ConnectsTo edge (so the caller-pull-in closure rule cannot
reach it), is included in the unreachable-functions report. -/
theorem claim2_detect_dead_code_amended (fm : String → String → Bool) (g : Graph)
    (pats : List String) (n : String) (nd : NodeData)
    (hmem : (n, some nd) ∈ g.nodes)
    (hkeys : (g.nodes.map Prod.fst).Nodup)
    (htype : nd.type = "FUNCTION")
    (hpats : ∀ p ∈ g.nodes, ∀ pat ∈ pats,
        fm (shortPath (match p.2 with | some d => d.file_path | none => "")) pat = false)
    (hnoin : ∀ e ∈ g.edges, e.2.1 ≠ n)
    (hlife : lifecycleNames.contains nd.name = false)
    (hpriv : startsWithStr nd.name "_" = false)
    (hnocrc : ∀ e ∈ g.edges, e.1 = n → crcRels.contains e.2.2.relationship = false) :
    ∃ entry ∈ (detect_dead_code fm g (some pats)).unreachable_functions,
      entry.id = n ∧ entry.name = nd.name := by
  have hpatsn : ∀ pat ∈ pats, fm (shortPath nd.file_path) pat = false := by
    intro pat hpat
    exact hpats (n, some nd) hmem pat hpat
  have hnent : n ∉ entryIds fm pats g :=
    not_entry_of_plain_function fm pats g n nd hmem hkeys htype hpatsn hlife
  have hnreach : n ∉ reachableSet g (entryIds fm pats g) := by
    unfold reachableSet
    apply reachLoop_avoids g n hnoin hnocrc
    · simp
    · intro hc
      rw [mem_pushList] at hc
      rcases hc with h1 | h1
      · exact hnent h1
      · simp at h1
  have hskipf : deadCodeSkip (reachableSet g (entryIds fm pats g)) (n, some nd) = false := by
    have h1 : (reachableSet g (entryIds fm pats g)).contains n = false :=
      contains_false_of_not_mem _ _ hnreach
    have h2 : reportSkipTypes.contains nd.type = false := by
      rw [htype]
      decide
    show ((reachableSet g (entryIds fm pats g)).contains n
        || reportSkipTypes.contains nd.type
        || ((nd.type == "FUNCTION") && startsWithStr nd.name "_"
            && !(privateExempt.contains nd.name))) = false
    rw [h1, h2, hpriv]
    simp
  refine ⟨deadNodeInfo (n, some nd), ?_, rfl, rfl⟩
  show deadNodeInfo (n, some nd) ∈ g.nodes.filterMap fun p =>
    if !(deadCodeSkip (reachableSet g (entryIds fm pats g)) p)
        && (match p.2 with | some d => d.type | none => "") == "FUNCTION"
    then some (deadNodeInfo p) else none
  apply List.mem_filterMap.mpr
  refine ⟨(n, some nd), hmem, ?_⟩
  rw [hskipf]
  have hft : ((match ((n, some nd) : String × Option NodeData).2 with
      | some d => d.type | none => "") == "FUNCTION") = true := by
    show (nd.type == "FUNCTION") = true
    rw [htype]
    decide
  rw [hft]
  simp

/-- C2 witness: the amended statement on a lone public function with no
edges. -/
theorem claim2_detect_dead_code_amended_witness :
    ∃ entry ∈ (detect_dead_code (fun _ _ => false) gLoneFn
        (some ["**/autoload/*.gd"])).unreachable_functions,
      entry.id = "foo1" ∧ entry.name = "foo" :=
  claim2_detect_dead_code_amended (fun _ _ => false) gLoneFn ["**/autoload/*.gd"] "foo1"
    (mkND "FUNCTION" "foo" "x.gd" 9 "high") (by decide) (by decide) (by decide)
    (by decide) (by decide) (by decide) (by decide) (by decide)

end Reach
